import Mathlib

/-!
Verification of the sync core of `claude-code-sync` against its specification.

The development shallowly embeds the Rust sources:
  * `src/parser.rs`      — `ConversationEntry`, `ConversationSession`, serialization,
                           `content_hash`, `append_entries_to_file`, `make_content_key`;
  * `src/conflict.rs`    — `analyze_session_relationship`, `verify_common_entries_identical`,
                           `Conflict`, `ConflictDetector::detect`;
  * `src/sync/pull.rs`   — the inline diverged-session merge and the append-only
                           write-back selection of `pull_history`;
  * `src/sync/history_merge.rs` — `HistoryEntry::parse`, `merge_history_files`;
  * `src/sync/push.rs`   — the push / error-classification / journal flow of `push_history`.

Modelling conventions:
  * JSON values (`serde_json::Value`) are the inductive `Json` below.  Numbers are
    modelled as integers (no claim under scrutiny involves float-valued JSON).
    `Json.render` mirrors `serde_json::to_string` (compact encoding, string escaping
    as in serde_json's escape table).
  * The 64-bit hash `xxhash_rust::xxh3::xxh3_64` is a parameter `xxh3 : String → Nat`
    of every definition that hashes; its `u64` result type is modelled by reducing
    modulo `2 ^ 64` at the point of use.  All theorems quantify over the hash.
  * Rust `HashSet`s that are only queried for membership are modelled as lists with
    `contains`; `HashMap`s built by `collect` keep the *last* insertion for a
    duplicated key, which the model reproduces.
  * `Vec::sort_by` / `sort_by_key` are stable sorts over a total preorder; any two
    stable sorts agree, so they are modelled by `List.insertionSort`.
-/

/-- JSON values as produced by serde_json: null, booleans, numbers (modelled as
integers), strings, arrays, and objects given as ordered key/value lists. -/
inductive Json where
  | null
  | bool (b : Bool)
  | num (n : Int)
  | str (s : String)
  | arr (elems : List Json)
  | obj (fields : List (String × Json))

mutual

def Json.decEq : (a b : Json) → Decidable (a = b)
  | .null, .null => isTrue rfl
  | .null, .bool _ => isFalse (by intro h; cases h)
  | .null, .num _ => isFalse (by intro h; cases h)
  | .null, .str _ => isFalse (by intro h; cases h)
  | .null, .arr _ => isFalse (by intro h; cases h)
  | .null, .obj _ => isFalse (by intro h; cases h)
  | .bool _, .null => isFalse (by intro h; cases h)
  | .bool a, .bool b =>
    if h : a = b then isTrue (by rw [h]) else isFalse (by intro he; injection he; contradiction)
  | .bool _, .num _ => isFalse (by intro h; cases h)
  | .bool _, .str _ => isFalse (by intro h; cases h)
  | .bool _, .arr _ => isFalse (by intro h; cases h)
  | .bool _, .obj _ => isFalse (by intro h; cases h)
  | .num _, .null => isFalse (by intro h; cases h)
  | .num _, .bool _ => isFalse (by intro h; cases h)
  | .num a, .num b =>
    if h : a = b then isTrue (by rw [h]) else isFalse (by intro he; injection he; contradiction)
  | .num _, .str _ => isFalse (by intro h; cases h)
  | .num _, .arr _ => isFalse (by intro h; cases h)
  | .num _, .obj _ => isFalse (by intro h; cases h)
  | .str _, .null => isFalse (by intro h; cases h)
  | .str _, .bool _ => isFalse (by intro h; cases h)
  | .str _, .num _ => isFalse (by intro h; cases h)
  | .str a, .str b =>
    if h : a = b then isTrue (by rw [h]) else isFalse (by intro he; injection he; contradiction)
  | .str _, .arr _ => isFalse (by intro h; cases h)
  | .str _, .obj _ => isFalse (by intro h; cases h)
  | .arr _, .null => isFalse (by intro h; cases h)
  | .arr _, .bool _ => isFalse (by intro h; cases h)
  | .arr _, .num _ => isFalse (by intro h; cases h)
  | .arr _, .str _ => isFalse (by intro h; cases h)
  | .arr a, .arr b =>
    match Json.decEqList a b with
    | isTrue h => isTrue (by rw [h])
    | isFalse h => isFalse (by intro he; injection he; contradiction)
  | .arr _, .obj _ => isFalse (by intro h; cases h)
  | .obj _, .null => isFalse (by intro h; cases h)
  | .obj _, .bool _ => isFalse (by intro h; cases h)
  | .obj _, .num _ => isFalse (by intro h; cases h)
  | .obj _, .str _ => isFalse (by intro h; cases h)
  | .obj _, .arr _ => isFalse (by intro h; cases h)
  | .obj a, .obj b =>
    match Json.decEqFields a b with
    | isTrue h => isTrue (by rw [h])
    | isFalse h => isFalse (by intro he; injection he; contradiction)

def Json.decEqList : (a b : List Json) → Decidable (a = b)
  | [], [] => isTrue rfl
  | [], _ :: _ => isFalse (by intro h; cases h)
  | _ :: _, [] => isFalse (by intro h; cases h)
  | x :: xs, y :: ys =>
    match Json.decEq x y with
    | isTrue h1 =>
      match Json.decEqList xs ys with
      | isTrue h2 => isTrue (by rw [h1, h2])
      | isFalse h2 => isFalse (by intro he; injection he; contradiction)
    | isFalse h1 => isFalse (by intro he; injection he; contradiction)

def Json.decEqFields : (a b : List (String × Json)) → Decidable (a = b)
  | [], [] => isTrue rfl
  | [], _ :: _ => isFalse (by intro h; cases h)
  | _ :: _, [] => isFalse (by intro h; cases h)
  | (k1, v1) :: xs, (k2, v2) :: ys =>
    if hk : k1 = k2 then
      match Json.decEq v1 v2 with
      | isTrue h1 =>
        match Json.decEqFields xs ys with
        | isTrue h2 => isTrue (by rw [hk, h1, h2])
        | isFalse h2 => isFalse (by intro he; injection he with hp ht; exact h2 ht)
      | isFalse h1 =>
        isFalse (by intro he; injection he with hp ht; exact h1 (congrArg Prod.snd hp))
    else
      isFalse (by intro he; injection he with hp ht; exact hk (congrArg Prod.fst hp))

end

instance : DecidableEq Json := Json.decEq

/-- Lower-case hexadecimal digit for a value below 16, as produced by Rust's
`{:x}` formatting. -/
def hexDigitChar (n : Nat) : Char :=
  if n < 10 then Char.ofNat (48 + n) else Char.ofNat (87 + n)

/-- JSON escaping of one character, following serde_json's escape table:
quote, backslash, the named control escapes, and `\u00XX` for other controls. -/
def escChar (c : Char) : String :=
  if c = '"' then "\\\""
  else if c = '\\' then "\\\\"
  else if c = '\x08' then "\\b"
  else if c = '\x09' then "\\t"
  else if c = '\x0a' then "\\n"
  else if c = '\x0c' then "\\f"
  else if c = '\x0d' then "\\r"
  else if c.toNat < 32 then
    "\\u00" ++ String.mk [hexDigitChar (c.toNat / 16), hexDigitChar (c.toNat % 16)]
  else String.singleton c

/-- JSON rendering of a string literal (quotes plus escaped content). -/
def renderStr (s : String) : String :=
  "\"" ++ String.join (s.data.map escChar) ++ "\""

mutual

def Json.render : Json → String
  | .null => "null"
  | .bool true => "true"
  | .bool false => "false"
  | .num n => toString n
  | .str s => renderStr s
  | .arr elems => "[" ++ Json.renderElems elems ++ "]"
  | .obj fields => "\x7b" ++ Json.renderFields fields ++ "\x7d"

def Json.renderElems : List Json → String
  | [] => ""
  | [j] => j.render
  | j :: rest => j.render ++ "," ++ Json.renderElems rest

def Json.renderFields : List (String × Json) → String
  | [] => ""
  | [(k, v)] => renderStr k ++ ":" ++ v.render
  | (k, v) :: rest => renderStr k ++ ":" ++ v.render ++ "," ++ Json.renderFields rest

end

/-- Lookup in a JSON object, as `serde_json::Value::get(key)`: the match for the
key in an object, `None` on non-objects.  (Values produced by serde parsing have
sorted, duplicate-free keys, for which first match and map lookup agree.) -/
def Json.getKey : Json → String → Option Json
  | .obj fields, k => (fields.find? (fun kv => kv.1 = k)).map (·.2)
  | _, _ => none

/-- Json.asStr models `Value::as_str`. -/
def Json.asStr : Json → Option String
  | .str s => some s
  | _ => none

/-- Json.asInt models `Value::as_i64`: integers in the `i64` range only. -/
def Json.asInt : Json → Option Int
  | .num n => if -(2 ^ 63) ≤ n ∧ n < 2 ^ 63 then some n else none
  | _ => none

/-- Byte-lexicographic strict comparison on character lists; for valid UTF-8,
code-point order coincides with Rust's byte order on `str`. -/
def charListLt : List Char → List Char → Bool
  | [], [] => false
  | [], _ :: _ => true
  | _ :: _, [] => false
  | x :: xs, y :: ys => if x = y then charListLt xs ys else decide (x < y)

/-- Strict string comparison mirroring Rust's `Ord` for `str`. -/
def strLt (a b : String) : Bool := charListLt a.data b.data

/-- Reflexive string comparison mirroring Rust's `Ord` for `str`. -/
def strLe (a b : String) : Bool := a = b || strLt a b

/-- ConversationEntry mirrors the struct of `src/parser.rs`: the named serde
fields plus the flattened catch-all `extra`.  Optional fields are omitted from
serialization when `None` (`skip_serializing_if`). -/
structure ConversationEntry where
  entry_type : String
  uuid : Option String := none
  parent_uuid : Option String := none
  session_id : Option String := none
  timestamp : Option String := none
  message : Option Json := none
  cwd : Option String := none
  version : Option String := none
  git_branch : Option String := none
  extra : Json := Json.obj []
  deriving DecidableEq

/-- Serialization of one optional string field under its serde rename. -/
def optStrField (name : String) : Option String → List (String × Json)
  | none => []
  | some s => [(name, Json.str s)]

/-- Fields contributed by the flattened `extra` value: the fields of an object,
nothing for `Null` (serde's flatten of a unit adds no keys).  Other primitives
are never produced by parsing and do not occur in the claims. -/
def extraFields : Json → List (String × Json)
  | Json.obj fields => fields
  | _ => []

/-- Serialization of an entry to a JSON object, mirroring serde's field order:
the named fields in declaration order (with renames, `None`s skipped), then the
flattened `extra` fields. -/
def ConversationEntry.toJson (e : ConversationEntry) : Json :=
  Json.obj (
    [("type", Json.str e.entry_type)]
    ++ optStrField "uuid" e.uuid
    ++ optStrField "parentUuid" e.parent_uuid
    ++ optStrField "sessionId" e.session_id
    ++ optStrField "timestamp" e.timestamp
    ++ (match e.message with | none => [] | some m => [("message", m)])
    ++ optStrField "cwd" e.cwd
    ++ optStrField "version" e.version
    ++ optStrField "gitBranch" e.git_branch
    ++ extraFields e.extra)

/-- Compact JSON text of an entry, as `serde_json::to_string(entry)`. -/
def serializeEntry (e : ConversationEntry) : String :=
  e.toJson.render

/-- ConversationSession mirrors `src/parser.rs`: id, ordered entries, path. -/
structure ConversationSession where
  session_id : String
  entries : List ConversationEntry
  file_path : String
  deriving DecidableEq

/-- Rust `{:016x}` rendering of a `u64` value: exactly sixteen lower-case hex
digits, most significant first. -/
def hex16 (n : Nat) : String :=
  String.mk ((List.range 16).map fun i => hexDigitChar (n / 16 ^ (15 - i) % 16))

/-- The hashed string of `ConversationSession::content_hash`: each entry's JSON
followed by a newline, accumulated in order. -/
def combinedJson (entries : List ConversationEntry) : String :=
  entries.foldl (fun acc e => acc ++ serializeEntry e ++ "\n") ""

/-- ConversationSession.content_hash mirrors `content_hash` of `src/parser.rs`:
the 64-bit digest of `combinedJson`, rendered `{:016x}`. -/
def ConversationSession.content_hash (xxh3 : String → Nat) (s : ConversationSession) : String :=
  hex16 (xxh3 (combinedJson s.entries) % 2 ^ 64)

/-- Maximum of a string list under byte order, as `Iterator::max` (the later of
two equal maxima is kept, which is indistinguishable for strings). -/
def maxStr : List String → Option String :=
  List.foldl (fun acc s =>
    match acc with
    | none => some s
    | some m => if strLt s m then some m else some s) none

/-- ConversationSession.latest_timestamp mirrors `latest_timestamp`. -/
def ConversationSession.latest_timestamp (s : ConversationSession) : Option String :=
  maxStr (s.entries.filterMap (·.timestamp))

/-- ConversationSession.message_count mirrors `message_count`: entries of type
`user` or `assistant`. -/
def ConversationSession.message_count (s : ConversationSession) : Nat :=
  s.entries.countP (fun e => e.entry_type = "user" || e.entry_type = "assistant")

/-- Content key of `make_content_key` in `src/parser.rs`: type, timestamp (empty
when absent) and the 64-bit hash of the message JSON (zero when absent), colon
separated with the hash in `{:016x}` form. -/
def make_content_key (xxh3 : String → Nat) (e : ConversationEntry) : String :=
  let ts := e.timestamp.getD ""
  let content_hash : Nat :=
    match e.message with
    | some m => xxh3 m.render % 2 ^ 64
    | none => 0
  e.entry_type ++ ":" ++ ts ++ ":" ++ hex16 content_hash

example : (Json.obj [("a", Json.num 1), ("b", Json.arr [Json.null, Json.str "x"])]).render
    = "\x7b\"a\":1,\"b\":[null,\"x\"]\x7d" := by decide

example : serializeEntry { entry_type := "user", uuid := some "u1" }
    = "\x7b\"type\":\"user\",\"uuid\":\"u1\"\x7d" := by decide

example : hex16 0 = "0000000000000000" := by decide

example : hex16 255 = "00000000000000ff" := by decide

/-- Relationship between two same-id sessions, from `src/conflict.rs`.  Source
constructor names: `Identical`, `LocalIsPrefix`, `RemoteIsPrefix`, `Diverged`
(the two middle names are shortened here to `localPfx` / `remotePfx`). -/
inductive SessionRelationship where
  | identical
  | localPfx
  | remotePfx
  | diverged
  deriving DecidableEq

/-- Uuids carried by a session's entries, in entry order (`filter_map` on the
optional uuid field). -/
def uuidsOf (s : ConversationSession) : List String :=
  s.entries.filterMap (·.uuid)

/-- Serialized JSON of the last local entry carrying the given uuid.  This is
the lookup of the `HashMap` built in `verify_common_entries_identical`, where a
later insertion for a duplicated uuid overwrites an earlier one. -/
def lastLocalJson (localS : ConversationSession) (u : String) : Option String :=
  ((localS.entries.filter (fun e => e.uuid = some u)).getLast?).map serializeEntry

/-- verify_common_entries_identical from `src/conflict.rs`: every remote entry
with a uuid that also occurs locally must serialize to the same JSON text as
the (last) local entry with that uuid. -/
def verify_common_entries_identical (localS remoteS : ConversationSession) : Bool :=
  remoteS.entries.all fun e =>
    match e.uuid with
    | none => true
    | some u =>
      match lastLocalJson localS u with
      | none => true
      | some localJson => serializeEntry e = localJson

/-- analyze_session_relationship from `src/conflict.rs`: hash fast path, then
uuid-set difference emptiness, then the byte-identical shared-entry check. -/
def analyze_session_relationship (xxh3 : String → Nat)
    (localS remoteS : ConversationSession) : SessionRelationship :=
  if localS.content_hash xxh3 = remoteS.content_hash xxh3 then
    .identical
  else
    let local_uuids := uuidsOf localS
    let remote_uuids := uuidsOf remoteS
    let localOnlyEmpty := local_uuids.all (remote_uuids.contains ·)
    let remoteOnlyEmpty := remote_uuids.all (local_uuids.contains ·)
    if localOnlyEmpty && !remoteOnlyEmpty && verify_common_entries_identical localS remoteS then
      .localPfx
    else if remoteOnlyEmpty && !localOnlyEmpty && verify_common_entries_identical localS remoteS then
      .remotePfx
    else
      .diverged

/-- Merge statistics carried by a smart-merge resolution. -/
structure MergeStats where
  local_messages : Nat
  remote_messages : Nat
  merged_messages : Nat
  deriving DecidableEq

/-- Resolution variants of `src/conflict.rs` (payloads kept where the claims
need them). -/
inductive ConflictResolution where
  | SmartMerge (merged_entries : List ConversationEntry) (stats : MergeStats)
  | KeepBoth (renamed_remote_file : String)
  | KeepLocal
  | KeepRemote
  | Pending
  deriving DecidableEq

/-- Conflict record of `src/conflict.rs` (paths as strings). -/
structure Conflict where
  session_id : String
  local_file : String
  remote_file : String
  local_timestamp : Option String
  remote_timestamp : Option String
  local_message_count : Nat
  remote_message_count : Nat
  local_hash : String
  remote_hash : String
  resolution : ConflictResolution
  deriving DecidableEq

/-- Conflict.new from `src/conflict.rs`: metadata from both sides, resolution
initialized to `Pending`. -/
def Conflict.new (xxh3 : String → Nat) (localS remoteS : ConversationSession) : Conflict :=
  { session_id := localS.session_id
    local_file := localS.file_path
    remote_file := remoteS.file_path
    local_timestamp := localS.latest_timestamp
    remote_timestamp := remoteS.latest_timestamp
    local_message_count := localS.message_count
    remote_message_count := remoteS.message_count
    local_hash := localS.content_hash xxh3
    remote_hash := remoteS.content_hash xxh3
    resolution := ConflictResolution.Pending }

/-- Lookup in the `session_id → session` map built by `collect` in
`ConflictDetector::detect`; a later list element with a duplicated id
overwrites an earlier one, hence the reversal. -/
def lookupSession (sessions : List ConversationSession) (sid : String) :
    Option ConversationSession :=
  sessions.reverse.find? (fun s => s.session_id = sid)

/-- Conflict produced (if any) for one remote session during detection: a
record is pushed exactly when a same-id local session exists and the analyzer
reports divergence. -/
def conflictFor (xxh3 : String → Nat) (locals : List ConversationSession)
    (r : ConversationSession) : Option Conflict :=
  match lookupSession locals r.session_id with
  | none => none
  | some l =>
    match analyze_session_relationship xxh3 l r with
    | .diverged => some (Conflict.new xxh3 l r)
    | _ => none

/-- ConflictDetector.detect from `src/conflict.rs`: fold over the remote
sessions, appending a conflict for each diverged same-id pair. -/
def ConflictDetector.detect (xxh3 : String → Nat)
    (locals remotes : List ConversationSession) : List Conflict :=
  remotes.foldl (fun acc r =>
    match conflictFor xxh3 locals r with
    | some c => acc ++ [c]
    | none => acc) []

/-- Dedup key of the inline diverged merge in `pull_history` (`pull.rs`); its
body is the closure `make_non_uuid_key`, textually identical to
`make_content_key`. -/
def make_non_uuid_key (xxh3 : String → Nat) (e : ConversationEntry) : String :=
  let ts := e.timestamp.getD ""
  let content_hash : Nat :=
    match e.message with
    | some m => xxh3 m.render % 2 ^ 64
    | none => 0
  e.entry_type ++ ":" ++ ts ++ ":" ++ hex16 content_hash

/-- Comparison used by the inline merge's final `sort_by` on
`Option<String>` timestamps: `None` sorts before `Some`, strings byte-order. -/
def tsOptLe : Option String → Option String → Bool
  | none, _ => true
  | some _, none => false
  | some a, some b => strLe a b

/-- Sort relation on entries for the inline merge (total preorder). -/
def entryTsRel (a b : ConversationEntry) : Prop :=
  tsOptLe a.timestamp b.timestamp = true

instance : DecidableRel entryTsRel := fun a b => by
  unfold entryTsRel; exact inferInstance

/-- Not-dominated-by-local test of the inline diverged merge's remote loop:
after the local loop, `seen_uuids` holds the local uuids and `seen_non_uuid`
the content keys of the uuid-less local entries; a remote entry is pushed when
its own identity is absent from the matching set. -/
def remoteKeepPred (xxh3 : String → Nat) (localS : ConversationSession)
    (e : ConversationEntry) : Bool :=
  let seen_uuids := localS.entries.filterMap (·.uuid)
  let seen_non_uuid :=
    (localS.entries.filter (fun e2 => e2.uuid = none)).map (make_non_uuid_key xxh3)
  match e.uuid with
  | some u => !(seen_uuids.contains u)
  | none => !(seen_non_uuid.contains (make_non_uuid_key xxh3 e))

/-- Inline diverged-session merge of `pull_history` (`pull.rs`, the `Diverged`
arm of the non-conflicting pass): all local entries, then the remote entries
whose uuid (or content key, when uuid-less) was not seen while walking the
local entries, finally a stable sort by timestamp.  Note the seen-sets are
*not* extended while walking the remote entries. -/
def inlineDivergedMerge (xxh3 : String → Nat)
    (localS remoteS : ConversationSession) : List ConversationEntry :=
  let combined := localS.entries ++ remoteS.entries.filter (remoteKeepPred xxh3 localS)
  combined.insertionSort entryTsRel

/-- Identity of an entry as defined by the spec's Invariant 3: the uuid when
present, otherwise the content key. -/
inductive EntryIdentity where
  | byUuid (u : String)
  | byKey (k : String)
  deriving DecidableEq

/-- Spec-side identity function of an entry. -/
def entryIdentity (xxh3 : String → Nat) (e : ConversationEntry) : EntryIdentity :=
  match e.uuid with
  | some u => .byUuid u
  | none => .byKey (make_content_key xxh3 e)

/-- Entry selection of the append-only write-back of `pull_history`
(`pull.rs`, step 6): the transport entries whose uuid is absent from the local
uuids, or — when uuid-less — whose content key is absent from the content keys
of the uuid-less local entries. -/
def writeBackEntriesToAppend (xxh3 : String → Nat)
    (localS syncS : ConversationSession) : List ConversationEntry :=
  let local_uuids := localS.entries.filterMap (·.uuid)
  let local_non_uuid_keys :=
    (localS.entries.filter (fun e => e.uuid = none)).map (make_content_key xxh3)
  syncS.entries.filter fun e =>
    match e.uuid with
    | some u => !(local_uuids.contains u)
    | none => !(local_non_uuid_keys.contains (make_content_key xxh3 e))

/-- Resulting entry list of one session's write-back: append the selected
entries when a same-id local session exists, otherwise copy the transport
session whole. -/
def writeBackResult (xxh3 : String → Nat) (localS : Option ConversationSession)
    (syncS : ConversationSession) : List ConversationEntry :=
  match localS with
  | some l => l.entries ++ writeBackEntriesToAppend xxh3 l syncS
  | none => syncS.entries

/-- File state for the append model: the bytes visible to readers and the
bytes guaranteed on disk. -/
structure FileState where
  content : String
  durable : String
  deriving DecidableEq

/-- One serialized JSONL line: the entry's JSON followed by a newline, as
written by `writeln!`. -/
def entryLine (e : ConversationEntry) : String :=
  serializeEntry e ++ "\n"

/-- append_entries_to_file from `src/parser.rs`: open with `create(true)` and
`append(true)` (so an absent file starts empty), write each entry as one line,
then `sync_all` before returning (modelled by `durable := content`). -/
def append_entries_to_file (prior : Option FileState)
    (entries : List ConversationEntry) : FileState :=
  let base := match prior with | some f => f.content | none => ""
  let newContent := entries.foldl (fun acc e => acc ++ entryLine e) base
  { content := newContent, durable := newContent }

/-- HistoryEntry of `src/sync/history_merge.rs`: the raw line plus the parsed
key fields. -/
structure HistoryEntry where
  line : String
  session_id : String
  timestamp : Int
  display : String
  deriving DecidableEq

/-- HistoryEntry.dedup_key. -/
def HistoryEntry.dedup_key (e : HistoryEntry) : String × Int :=
  (e.session_id, e.timestamp)

/-- HistoryEntry.parse from `src/sync/history_merge.rs`, parametrized by the
text-level JSON parser `parseJson` (serde_json::from_str for `Value`): needs a
string `sessionId` and an integer `timestamp`, rejects empty session ids and
zero timestamps, defaults `display` to the empty string. -/
def HistoryEntry.parse (parseJson : String → Option Json) (line : String) :
    Option HistoryEntry :=
  match parseJson line with
  | none => none
  | some v =>
    match (v.getKey "sessionId").bind Json.asStr, (v.getKey "timestamp").bind Json.asInt with
    | some sid, some ts =>
      if sid = "" then none
      else if ts = 0 then none
      else some { line := line, session_id := sid, timestamp := ts,
                  display := (((v.getKey "display").bind Json.asStr).getD "") }
    | _, _ => none

/-- Merge priority of `src/sync/history_merge.rs`. -/
inductive MergePriority where
  | SourceFirst
  | TargetFirst
  deriving DecidableEq

/-- Blank-line test `line.trim().is_empty()` (whitespace-only line). -/
def isBlankLine (line : String) : Bool :=
  line.data.all (·.isWhitespace)

/-- One file's pass of `merge_history_files`: walk the lines, skip blank ones,
skip unparseable ones, and append each entry whose `(sessionId, timestamp)`
key is unseen, registering the key. -/
def dedupPass (parseJson : String → Option Json) (lines : List String)
    (st : List (String × Int) × List HistoryEntry) :
    List (String × Int) × List HistoryEntry :=
  lines.foldl (fun st line =>
    if isBlankLine line then st
    else
      match HistoryEntry.parse parseJson line with
      | none => st
      | some entry =>
        if st.1.contains entry.dedup_key then st
        else (entry.dedup_key :: st.1, st.2 ++ [entry])) st

/-- Sort relation of the final `sort_by_key` on parsed timestamps. -/
def histLe (a b : HistoryEntry) : Prop :=
  a.timestamp ≤ b.timestamp

instance : DecidableRel histLe := fun a b => by
  unfold histLe; exact inferInstance

instance : IsTotal HistoryEntry histLe :=
  ⟨fun a b => Int.le_total a.timestamp b.timestamp⟩

instance : IsTrans HistoryEntry histLe :=
  ⟨fun _ _ _ h1 h2 => le_trans h1 h2⟩

/-- Merged entry sequence of `merge_history_files` (`history_merge.rs`): the
priority file's pass first, then the other file's, then a stable ascending
sort by timestamp.  A missing file (`exists()` false) contributes no lines. -/
def mergedHistoryEntries (parseJson : String → Option Json)
    (sourceLines targetLines : Option (List String)) (priority : MergePriority) :
    List HistoryEntry :=
  let firstLines := match priority with
    | .TargetFirst => targetLines.getD []
    | .SourceFirst => sourceLines.getD []
  let secondLines := match priority with
    | .TargetFirst => sourceLines.getD []
    | .SourceFirst => targetLines.getD []
  let st1 := dedupPass parseJson firstLines ([], [])
  let st2 := dedupPass parseJson secondLines st1
  st2.2.insertionSort histLe

/-- merge_history_files: the lines rewritten into the target file, each the
raw line of a merged entry. -/
def merge_history_files (parseJson : String → Option Json)
    (sourceLines targetLines : Option (List String)) (priority : MergePriority) :
    List String :=
  (mergedHistoryEntries parseJson sourceLines targetLines priority).map (·.line)

/-- Prefix test on lists (helper for the substring test). -/
def listIsPrefOf [DecidableEq α] : List α → List α → Bool
  | [], _ => true
  | _ :: _, [] => false
  | x :: xs, y :: ys => x = y && listIsPrefOf xs ys

/-- Contiguous-subsequence test on lists (helper for the substring test). -/
def listIsSubOf [DecidableEq α] (l : List α) : List α → Bool
  | [] => listIsPrefOf l []
  | y :: rest => listIsPrefOf l (y :: rest) || listIsSubOf l rest

/-- Substring containment as Rust's `str::contains` (the needles used by the
source are ASCII, for which byte and character containment agree). -/
def strContainsSub (hay sub : String) : Bool :=
  listIsSubOf sub.data hay.data

/-- Push error classification of `push_history` (`src/sync/push.rs`): the
message substrings that indicate a rejected non-fast-forward push. -/
def isNonFastForwardMsg (msg : String) : Bool :=
  strContainsSub msg "non-fast-forward" || strContainsSub msg "fetch first" ||
  strContainsSub msg "rejected" || strContainsSub msg "failed to push"

/-- Error returned by the push flow: the distinct pull-first advice for a
rejected push, or the original transport error wrapped with context. -/
inductive PushError where
  | nonFastForward (advice : String)
  | withContext (ctx : String) (orig : String)
  deriving DecidableEq

instance : DecidableEq (Except PushError Unit) := fun a b =>
  match a, b with
  | .ok (), .ok () => isTrue rfl
  | .error e1, .error e2 =>
    if h : e1 = e2 then isTrue (by rw [h])
    else isFalse (by intro he; injection he; contradiction)
  | .ok _, .error _ => isFalse (by intro h; cases h)
  | .error _, .ok _ => isFalse (by intro h; cases h)

/-- Outcome of one `push_history` invocation: the returned result and whether
a Push record was added to the operation journal. -/
structure PushRunResult where
  result : Except PushError Unit
  journaled : Bool
  deriving DecidableEq

/-- Push flow of `push_history` (`src/sync/push.rs`) after the always-run
prologue (lock, state, filter, LFS, stage): interactive decline returns early;
a configured push classifies a transport failure by substring and returns an
error before any journal write; with no push and no changes the function also
returns early; otherwise the operation is journaled. -/
def push_history (hasChanges confirmDeclined pushRemote hasRemote : Bool)
    (pushOutcome : Except String Unit) : PushRunResult :=
  if hasChanges && confirmDeclined then
    { result := .ok (), journaled := false }
  else if pushRemote && hasRemote then
    match pushOutcome with
    | .ok () => { result := .ok (), journaled := true }
    | .error msg =>
      if isNonFastForwardMsg msg then
        { result := .error (.nonFastForward
            "Push rejected: remote has new commits. Run claude-code-sync pull first.")
          journaled := false }
      else
        { result := .error (.withContext "Failed to push to remote" msg)
          journaled := false }
  else if !hasChanges then
    { result := .ok (), journaled := false }
  else
    { result := .ok (), journaled := true }

/-- Named serde fields of `ConversationEntry` (after renames); every other key
of a parsed object is collected into the flattened `extra` map. -/
def knownFieldNames : List String :=
  ["type", "uuid", "parentUuid", "sessionId", "timestamp", "message", "cwd", "version",
   "gitBranch"]

/-- Number of occurrences of a key among an object's fields. -/
def countKey (fields : List (String × Json)) (k : String) : Nat :=
  fields.countP (fun kv => kv.1 = k)

/-- First value bound to a key among an object's fields (text order). -/
def lookupKey (fields : List (String × Json)) (k : String) : Option Json :=
  (fields.find? (fun kv => kv.1 = k)).map (·.2)

/-- Deserialization of an `Option<String>` field: absent or `null` gives
`None`, a string gives `Some`, any other value is a type error. -/
def getOptStrField (fields : List (String × Json)) (k : String) : Option (Option String) :=
  match lookupKey fields k with
  | none => some none
  | some (Json.str s) => some (some s)
  | some Json.null => some none
  | some _ => none

/-- Deserialization of the `Option<Value>` message field: absent or `null`
gives `None`, anything else is kept. -/
def getOptJsonField (fields : List (String × Json)) (k : String) : Option (Option Json) :=
  match lookupKey fields k with
  | none => some none
  | some Json.null => some none
  | some v => some (some v)

/-- Ordered-map insertion for the flattened catch-all: a `BTreeMap` insert,
replacing the value of an existing key, keeping keys byte-sorted. -/
def insertSorted (k : String) (v : Json) : List (String × Json) → List (String × Json)
  | [] => [(k, v)]
  | (k2, v2) :: rest =>
    if k = k2 then (k, v) :: rest
    else if strLt k k2 then (k, v) :: (k2, v2) :: rest
    else (k2, v2) :: insertSorted k v rest

/-- Unknown keys of a parsed object, collected in encounter order into the
sorted catch-all map (a later duplicate replaces an earlier one, as with
`BTreeMap` insertion). -/
def collectExtras (fields : List (String × Json)) : List (String × Json) :=
  fields.foldl (fun acc kv =>
    if knownFieldNames.contains kv.1 then acc else insertSorted kv.1 kv.2 acc) []

/-- Deserialization of one JSONL line (given as its JSON value) into a
`ConversationEntry`, mirroring serde's derived deserializer with a flattened
catch-all: a non-object fails; a duplicated named field fails; `type` must be
present and a string; the optional fields deserialize as `Option`; every
unknown key lands in `extra`. -/
def parseEntry (j : Json) : Option ConversationEntry :=
  match j with
  | Json.obj fields =>
    if knownFieldNames.all (fun k => countKey fields k ≤ 1) then
      match lookupKey fields "type" with
      | some (Json.str ty) =>
        match getOptStrField fields "uuid", getOptStrField fields "parentUuid",
              getOptStrField fields "sessionId", getOptStrField fields "timestamp",
              getOptJsonField fields "message", getOptStrField fields "cwd",
              getOptStrField fields "version", getOptStrField fields "gitBranch" with
        | some uu, some pu, some sid, some ts, some msg, some cw, some ver, some gb =>
          some { entry_type := ty, uuid := uu, parent_uuid := pu, session_id := sid,
                 timestamp := ts, message := msg, cwd := cw, version := ver,
                 git_branch := gb, extra := Json.obj (collectExtras fields) }
        | _, _, _, _, _, _, _, _ => none
      | _ => none
    else none
  | _ => none

/-- Parse of a whole JSONL document, given as the JSON values of its non-blank
lines: all-or-nothing, as `ConversationSession::from_file` fails on the first
bad line. -/
def parseEntries : List Json → Option (List ConversationEntry)
  | [] => some []
  | j :: rest =>
    match parseEntry j, parseEntries rest with
    | some e, some es => some (e :: es)
    | _, _ => none

/-- Whole-file write of `ConversationSession::write_to_file`, at the
line-value level: one JSON object per entry, in order. -/
def write_to_file (entries : List ConversationEntry) : List Json :=
  entries.map ConversationEntry.toJson

/-- Concrete injection-free stand-in hash used to instantiate the universally
quantified `xxh3` parameter in witnesses and counterexamples. -/
def demoHash (s : String) : Nat :=
  s.length

/-- Joined-with-newline-separators reading of the content-hash input, as the
spec sentence words it (`String.intercalate`-style, no trailing newline). -/
def specCombinedJson : List ConversationEntry → String
  | [] => ""
  | [e] => serializeEntry e
  | e :: rest => serializeEntry e ++ "\n" ++ specCombinedJson rest

example : parseEntry (Json.obj [("type", Json.str "user"), ("zz", Json.num 3)])
    = some { entry_type := "user", extra := Json.obj [("zz", Json.num 3)] } := by decide

example : parseEntry (Json.obj [("type", Json.str "u"), ("type", Json.str "u")]) = none := by
  decide

theorem charListLt_irrefl : ∀ l : List Char, charListLt l l = false
  | [] => rfl
  | c :: rest => by simp [charListLt, charListLt_irrefl rest]

theorem charListLt_trans :
    ∀ (a b c : List Char), charListLt a b = true → charListLt b c = true →
      charListLt a c = true := by
  intro a
  induction a with
  | nil =>
    intro b c hab hbc
    cases b with
    | nil => simp [charListLt] at hab
    | cons y ys =>
      cases c with
      | nil => simp [charListLt] at hbc
      | cons z zs => simp [charListLt]
  | cons x xs ih =>
    intro b c hab hbc
    cases b with
    | nil => simp [charListLt] at hab
    | cons y ys =>
      cases c with
      | nil => simp [charListLt] at hbc
      | cons z zs =>
        simp only [charListLt] at hab hbc ⊢
        by_cases hxy : x = y
        · subst hxy
          simp only [if_pos rfl] at hab
          by_cases hxz : x = z
          · subst hxz
            simp only [if_pos rfl] at hbc ⊢
            exact ih ys zs hab hbc
          · simp only [if_neg hxz] at hbc ⊢
            exact hbc
        · simp only [if_neg hxy] at hab
          by_cases hyz : y = z
          · subst hyz
            simp only [if_neg hxy]
            exact hab
          · simp only [if_neg hyz] at hbc
            have hxltz : x < z := lt_trans (of_decide_eq_true hab) (of_decide_eq_true hbc)
            have hxz : x ≠ z := ne_of_lt hxltz
            simp [if_neg hxz, hxltz]

theorem charListLt_connex :
    ∀ (a b : List Char), a ≠ b → charListLt a b = true ∨ charListLt b a = true := by
  intro a
  induction a with
  | nil =>
    intro b hne
    cases b with
    | nil => exact absurd rfl hne
    | cons y ys => left; simp [charListLt]
  | cons x xs ih =>
    intro b hne
    cases b with
    | nil => right; simp [charListLt]
    | cons y ys =>
      by_cases hxy : x = y
      · subst hxy
        have hne2 : xs ≠ ys := by intro h; exact hne (by rw [h])
        rcases ih ys hne2 with h | h
        · left; simp [charListLt, h]
        · right; simp [charListLt, h]
      · rcases lt_or_gt_of_ne hxy with h | h
        · left; simp [charListLt, if_neg hxy, h]
        · right
          have hyx : y ≠ x := fun he => hxy he.symm
          simp [charListLt, if_neg hyx, h]

theorem strLt_irrefl (s : String) : strLt s s = false :=
  charListLt_irrefl s.data

theorem strLt_trans {a b c : String} (h1 : strLt a b = true) (h2 : strLt b c = true) :
    strLt a c = true :=
  charListLt_trans a.data b.data c.data h1 h2

theorem strLt_connex {a b : String} (h : a ≠ b) :
    strLt a b = true ∨ strLt b a = true := by
  have hd : a.data ≠ b.data := by
    intro he
    apply h
    cases a; cases b; simp_all
  exact charListLt_connex a.data b.data hd

theorem strLt_ne {a b : String} (h : strLt a b = true) : a ≠ b := by
  intro he
  subst he
  rw [strLt_irrefl] at h
  cases h

theorem strLt_asymm {a b : String} (h : strLt a b = true) : strLt b a = false := by
  by_contra hc
  have hba : strLt b a = true := by
    cases hb : strLt b a
    · exact absurd hb hc
    · rfl
  have : strLt a a = true := strLt_trans h hba
  rw [strLt_irrefl] at this
  cases this

/-- Keys of an object's field list. -/
def keysOf (fields : List (String × Json)) : List String :=
  fields.map (·.1)

/-- Strictly ascending keys (the invariant of the flattened catch-all map). -/
def KeysSorted (l : List (String × Json)) : Prop :=
  l.Pairwise (fun a b => strLt a.1 b.1 = true)

theorem mem_insertSorted {k : String} {v : Json} :
    ∀ {l : List (String × Json)} {x}, x ∈ insertSorted k v l → x = (k, v) ∨ x ∈ l := by
  intro l
  induction l with
  | nil => intro x hx; simp [insertSorted] at hx; left; exact hx
  | cons hd tl ih =>
    intro x hx
    by_cases hk : k = hd.1
    · obtain ⟨k2, v2⟩ := hd
      simp only [insertSorted, if_pos hk] at hx
      rcases List.mem_cons.mp hx with h | h
      · left; exact h
      · right; exact List.mem_cons_of_mem _ h
    · obtain ⟨k2, v2⟩ := hd
      simp only [insertSorted, if_neg hk] at hx
      by_cases hlt : strLt k k2 = true
      · simp only [if_pos hlt] at hx
        rcases List.mem_cons.mp hx with h | h
        · left; exact h
        · right; exact h
      · simp only [if_neg hlt] at hx
        rcases List.mem_cons.mp hx with h | h
        · right; exact List.mem_cons.mpr (Or.inl h)
        · rcases ih h with h2 | h2
          · left; exact h2
          · right; exact List.mem_cons_of_mem _ h2

theorem insertSorted_sorted {k : String} {v : Json} :
    ∀ {l : List (String × Json)}, KeysSorted l → KeysSorted (insertSorted k v l) := by
  intro l
  induction l with
  | nil => intro _; simp [insertSorted, KeysSorted]
  | cons hd tl ih =>
    intro hs
    obtain ⟨k2, v2⟩ := hd
    have hs2 : KeysSorted tl := (List.pairwise_cons.mp hs).2
    have hhd : ∀ y ∈ tl, strLt k2 y.1 = true := (List.pairwise_cons.mp hs).1
    by_cases hk : k = k2
    · simp only [insertSorted, if_pos hk]
      exact List.pairwise_cons.mpr ⟨fun y hy => hk ▸ hhd y hy, hs2⟩
    · simp only [insertSorted, if_neg hk]
      by_cases hlt : strLt k k2 = true
      · simp only [if_pos hlt]
        refine List.pairwise_cons.mpr ⟨?_, hs⟩
        intro y hy
        rcases List.mem_cons.mp hy with h | h
        · rw [h]; exact hlt
        · exact strLt_trans hlt (hhd y h)
      · simp only [if_neg hlt]
        have hk2k : strLt k2 k = true := by
          rcases strLt_connex hk with h | h
          · exact absurd h hlt
          · exact h
        refine List.pairwise_cons.mpr ⟨?_, ih hs2⟩
        intro y hy
        rcases mem_insertSorted hy with h | h
        · rw [h]; exact hk2k
        · exact hhd y h

theorem insertSorted_of_gt {k : String} {v : Json} :
    ∀ {l : List (String × Json)}, (∀ y ∈ l, strLt y.1 k = true) →
      insertSorted k v l = l ++ [(k, v)] := by
  intro l
  induction l with
  | nil => intro _; rfl
  | cons hd tl ih =>
    intro hall
    obtain ⟨k2, v2⟩ := hd
    have h2 : strLt k2 k = true := hall (k2, v2) (List.mem_cons_self _ _)
    have hk : k ≠ k2 := fun he => strLt_ne h2 he.symm
    have hnlt : ¬ strLt k k2 = true := by
      rw [strLt_asymm h2]; simp
    simp only [insertSorted, if_neg hk, if_neg hnlt, List.cons_append, List.cons.injEq, true_and]
    exact ih (fun y hy => hall y (List.mem_cons_of_mem _ hy))

theorem collectExtras_invariant :
    ∀ (fields acc : List (String × Json)), KeysSorted acc →
      (∀ kv ∈ acc, kv.1 ∉ knownFieldNames) →
      KeysSorted (fields.foldl (fun acc kv =>
          if knownFieldNames.contains kv.1 then acc else insertSorted kv.1 kv.2 acc) acc) ∧
      ∀ kv ∈ fields.foldl (fun acc kv =>
          if knownFieldNames.contains kv.1 then acc else insertSorted kv.1 kv.2 acc) acc,
        kv.1 ∉ knownFieldNames := by
  intro fields
  induction fields with
  | nil => intro acc hs hu; exact ⟨hs, hu⟩
  | cons hd tl ih =>
    intro acc hs hu
    simp only [List.foldl_cons]
    by_cases hk : knownFieldNames.contains hd.1
    · rw [if_pos hk]
      exact ih acc hs hu
    · rw [if_neg hk]
      refine ih _ (insertSorted_sorted hs) ?_
      intro kv hkv
      rcases mem_insertSorted hkv with h | h
      · rw [h]
        simpa using hk
      · exact hu kv h

theorem collectExtras_sorted (fields : List (String × Json)) :
    KeysSorted (collectExtras fields) :=
  (collectExtras_invariant fields [] (by simp [KeysSorted]) (by simp)).1

theorem collectExtras_unknown (fields : List (String × Json)) :
    ∀ kv ∈ collectExtras fields, kv.1 ∉ knownFieldNames :=
  (collectExtras_invariant fields [] (by simp [KeysSorted]) (by simp)).2

theorem foldl_insert_of_sorted :
    ∀ (X acc : List (String × Json)), KeysSorted (acc ++ X) →
      (∀ kv ∈ X, kv.1 ∉ knownFieldNames) →
      X.foldl (fun acc kv =>
          if knownFieldNames.contains kv.1 then acc else insertSorted kv.1 kv.2 acc) acc
        = acc ++ X := by
  intro X
  induction X with
  | nil => intro acc _ _; simp
  | cons hd tl ih =>
    intro acc hs hu
    obtain ⟨k, v⟩ := hd
    have hk : k ∉ knownFieldNames := hu (k, v) (List.mem_cons_self _ _)
    simp only [List.foldl_cons]
    rw [if_neg (by simpa using hk)]
    have hacc : ∀ y ∈ acc, strLt y.1 k = true := by
      intro y hy
      have := (List.pairwise_append.mp hs).2.2 y hy (k, v) (List.mem_cons_self _ _)
      exact this
    rw [insertSorted_of_gt hacc]
    have hs2 : KeysSorted ((acc ++ [(k, v)]) ++ tl) := by
      have : (acc ++ [(k, v)]) ++ tl = acc ++ ((k, v) :: tl) := by simp
      rw [this]
      exact hs
    have := ih (acc ++ [(k, v)]) hs2 (fun kv hkv => hu kv (List.mem_cons_of_mem _ hkv))
    rw [this]
    simp

theorem collectExtras_of_known_prefix :
    ∀ (A X : List (String × Json)), (∀ kv ∈ A, kv.1 ∈ knownFieldNames) →
      KeysSorted X → (∀ kv ∈ X, kv.1 ∉ knownFieldNames) →
      collectExtras (A ++ X) = X := by
  intro A X hA hs hu
  unfold collectExtras
  rw [List.foldl_append]
  have hfold : A.foldl (fun acc kv =>
      if knownFieldNames.contains kv.1 then acc else insertSorted kv.1 kv.2 acc) [] = [] := by
    induction A with
    | nil => rfl
    | cons hd tl ih =>
      have hk : hd.1 ∈ knownFieldNames := hA hd (List.mem_cons_self _ _)
      simp only [List.foldl_cons]
      rw [if_pos (by simpa using hk)]
      exact ih (fun kv hkv => hA kv (List.mem_cons_of_mem _ hkv))
  rw [hfold]
  exact foldl_insert_of_sorted X [] (by simpa using hs) hu

/-- Named-field part of `ConversationEntry.toJson`: everything before the
flattened `extra` fields. -/
def knownPart (e : ConversationEntry) : List (String × Json) :=
  [("type", Json.str e.entry_type)]
  ++ optStrField "uuid" e.uuid
  ++ optStrField "parentUuid" e.parent_uuid
  ++ optStrField "sessionId" e.session_id
  ++ optStrField "timestamp" e.timestamp
  ++ (match e.message with | none => [] | some m => [("message", m)])
  ++ optStrField "cwd" e.cwd
  ++ optStrField "version" e.version
  ++ optStrField "gitBranch" e.git_branch

theorem toJson_eq_knownPart (e : ConversationEntry) :
    e.toJson = Json.obj (knownPart e ++ extraFields e.extra) := by
  simp [ConversationEntry.toJson, knownPart, List.append_assoc]

theorem mem_optStrField {kv : String × Json} {n : String} {o : Option String}
    (h : kv ∈ optStrField n o) : kv.1 = n := by
  cases o with
  | none => simp [optStrField] at h
  | some s =>
    simp only [optStrField, List.mem_singleton] at h
    rw [h]

theorem mem_msgField {kv : String × Json} {o : Option Json}
    (h : kv ∈ (match o with | none => ([] : List (String × Json)) | some m => [("message", m)])) :
    kv.1 = "message" := by
  cases o with
  | none => simp at h
  | some m =>
    simp only [List.mem_singleton] at h
    rw [h]

theorem keysOf_knownPart_mem (e : ConversationEntry) :
    ∀ kv ∈ knownPart e, kv.1 ∈ knownFieldNames := by
  intro kv hkv
  simp only [knownPart, List.append_assoc, List.mem_append, List.mem_cons,
    List.not_mem_nil, or_false] at hkv
  rcases hkv with h | h | h | h | h | h | h | h | h
  · rw [h]; simp [knownFieldNames]
  · rw [mem_optStrField h]; simp [knownFieldNames]
  · rw [mem_optStrField h]; simp [knownFieldNames]
  · rw [mem_optStrField h]; simp [knownFieldNames]
  · rw [mem_optStrField h]; simp [knownFieldNames]
  · rw [mem_msgField h]; simp [knownFieldNames]
  · rw [mem_optStrField h]; simp [knownFieldNames]
  · rw [mem_optStrField h]; simp [knownFieldNames]
  · rw [mem_optStrField h]; simp [knownFieldNames]

theorem lookupKey_nil (k : String) : lookupKey [] k = none := rfl

theorem lookupKey_cons (k1 : String) (v1 : Json) (rest : List (String × Json)) (k : String) :
    lookupKey ((k1, v1) :: rest) k = if k1 = k then some v1 else lookupKey rest k := by
  by_cases h : k1 = k <;> simp [lookupKey, List.find?_cons, h]

theorem lookupKey_append (A B : List (String × Json)) (k : String) :
    lookupKey (A ++ B) k =
      match lookupKey A k with
      | some v => some v
      | none => lookupKey B k := by
  induction A with
  | nil => simp [lookupKey_nil]
  | cons hd tl ih =>
    obtain ⟨k1, v1⟩ := hd
    by_cases h : k1 = k
    · simp [lookupKey_cons, h]
    · simp only [List.cons_append, lookupKey_cons, if_neg h, ih]

theorem lookupKey_optStrField (n : String) (o : Option String) (k : String) :
    lookupKey (optStrField n o) k = if n = k then o.map Json.str else none := by
  cases o <;> by_cases h : n = k <;>
    simp [optStrField, lookupKey_nil, lookupKey_cons, h]

theorem lookupKey_msgField (o : Option Json) (k : String) :
    lookupKey (match o with | none => ([] : List (String × Json)) | some m => [("message", m)]) k
      = if "message" = k then o else none := by
  cases o <;> by_cases h : "message" = k <;>
    simp [lookupKey_nil, lookupKey_cons, h]

theorem lookupKey_of_unknown (X : List (String × Json))
    (hX : ∀ kv ∈ X, kv.1 ∉ knownFieldNames) {k : String} (hk : k ∈ knownFieldNames) :
    lookupKey X k = none := by
  have hnone : X.find? (fun kv => kv.1 = k) = none := by
    rw [List.find?_eq_none]
    intro kv hkv
    simp only [decide_eq_true_eq]
    intro he
    exact hX kv hkv (he ▸ hk)
  simp [lookupKey, hnone]

theorem countKey_append (A B : List (String × Json)) (k : String) :
    countKey (A ++ B) k = countKey A k + countKey B k := by
  simp [countKey, List.countP_append]

theorem countKey_of_unknown (X : List (String × Json))
    (hX : ∀ kv ∈ X, kv.1 ∉ knownFieldNames) {k : String} (hk : k ∈ knownFieldNames) :
    countKey X k = 0 := by
  simp only [countKey]
  rw [List.countP_eq_zero]
  intro kv hkv
  simp only [decide_eq_true_eq]
  intro he
  exact hX kv hkv (he ▸ hk)

theorem countP_key_le_one (l : List String) (hl : l.Nodup) (k : String) :
    l.countP (fun s => s = k) ≤ 1 := by
  induction l with
  | nil => simp
  | cons x rest ih =>
    rcases List.nodup_cons.mp hl with ⟨hx, hrest⟩
    by_cases h : x = k
    · subst h
      have hz : rest.countP (fun s => s = x) = 0 := by
        rw [List.countP_eq_zero]
        intro a ha
        simp only [decide_eq_true_eq]
        intro he
        exact hx (he ▸ ha)
      simp [List.countP_cons, hz]
    · simpa [List.countP_cons, h] using ih hrest

theorem keysOf_knownPart_sublist (e : ConversationEntry) :
    List.Sublist (keysOf (knownPart e)) knownFieldNames := by
  have base : ∀ (n : String) (o : Option String),
      List.Sublist ((optStrField n o).map (·.1)) [n] := by
    intro n o; cases o <;> simp [optStrField]
  have msg : List.Sublist
      (List.map (fun kv : String × Json => kv.1)
        (match e.message with
         | none => ([] : List (String × Json))
         | some m => [("message", m)])) ["message"] := by
    cases e.message <;> simp
  have main : List.Sublist (keysOf (knownPart e))
      ((((((((["type"] ++ ["uuid"]) ++ ["parentUuid"]) ++ ["sessionId"]) ++ ["timestamp"])
        ++ ["message"]) ++ ["cwd"]) ++ ["version"]) ++ ["gitBranch"]) := by
    simp only [knownPart, keysOf, List.map_append, List.map_cons, List.map_nil]
    exact ((((((((List.Sublist.refl ["type"]).append (base _ _)).append (base _ _)).append
      (base _ _)).append (base _ _)).append msg).append (base _ _)).append
      (base _ _)).append (base _ _)
  simpa using main

theorem countKey_all_le_one (e : ConversationEntry) (X : List (String × Json))
    (hX : ∀ kv ∈ X, kv.1 ∉ knownFieldNames) :
    ∀ k ∈ knownFieldNames, countKey (knownPart e ++ X) k ≤ 1 := by
  intro k hk
  rw [countKey_append, countKey_of_unknown X hX hk, Nat.add_zero]
  have hnd : (keysOf (knownPart e)).Nodup :=
    (by decide : knownFieldNames.Nodup).sublist (keysOf_knownPart_sublist e)
  have heq : countKey (knownPart e) k = (keysOf (knownPart e)).countP (fun s => s = k) := by
    simp only [countKey, keysOf, List.countP_map]
    rfl
  rw [heq]
  exact countP_key_le_one _ hnd k

theorem parseEntry_toJson (e : ConversationEntry)
    (hmsg : e.message ≠ some Json.null)
    (X : List (String × Json)) (hex : e.extra = Json.obj X)
    (hs : KeysSorted X) (hu : ∀ kv ∈ X, kv.1 ∉ knownFieldNames) :
    parseEntry e.toJson = some e := by
  rw [toJson_eq_knownPart e, hex]
  show parseEntry (Json.obj (knownPart e ++ X)) = some e
  have hXty : lookupKey X "type" = none := lookupKey_of_unknown X hu (by simp [knownFieldNames])
  have hXuu : lookupKey X "uuid" = none := lookupKey_of_unknown X hu (by simp [knownFieldNames])
  have hXpu : lookupKey X "parentUuid" = none :=
    lookupKey_of_unknown X hu (by simp [knownFieldNames])
  have hXsid : lookupKey X "sessionId" = none :=
    lookupKey_of_unknown X hu (by simp [knownFieldNames])
  have hXts : lookupKey X "timestamp" = none :=
    lookupKey_of_unknown X hu (by simp [knownFieldNames])
  have hXmsg : lookupKey X "message" = none :=
    lookupKey_of_unknown X hu (by simp [knownFieldNames])
  have hXcwd : lookupKey X "cwd" = none := lookupKey_of_unknown X hu (by simp [knownFieldNames])
  have hXver : lookupKey X "version" = none :=
    lookupKey_of_unknown X hu (by simp [knownFieldNames])
  have hXgb : lookupKey X "gitBranch" = none :=
    lookupKey_of_unknown X hu (by simp [knownFieldNames])
  have hty : lookupKey (knownPart e ++ X) "type" = some (Json.str e.entry_type) := by
    simp [knownPart, List.append_assoc, lookupKey_append, lookupKey_cons, lookupKey_optStrField,
      lookupKey_msgField, hXty]
  have huu : lookupKey (knownPart e ++ X) "uuid" = e.uuid.map Json.str := by
    simp only [knownPart, List.append_assoc, List.cons_append, List.nil_append,
      lookupKey_append, lookupKey_cons, lookupKey_optStrField, lookupKey_msgField, hXuu]
    cases e.uuid <;> simp
  have hpu : lookupKey (knownPart e ++ X) "parentUuid" = e.parent_uuid.map Json.str := by
    simp only [knownPart, List.append_assoc, List.cons_append, List.nil_append,
      lookupKey_append, lookupKey_cons, lookupKey_optStrField, lookupKey_msgField, hXpu]
    cases e.parent_uuid <;> simp
  have hsid : lookupKey (knownPart e ++ X) "sessionId" = e.session_id.map Json.str := by
    simp only [knownPart, List.append_assoc, List.cons_append, List.nil_append,
      lookupKey_append, lookupKey_cons, lookupKey_optStrField, lookupKey_msgField, hXsid]
    cases e.session_id <;> simp
  have hts : lookupKey (knownPart e ++ X) "timestamp" = e.timestamp.map Json.str := by
    simp only [knownPart, List.append_assoc, List.cons_append, List.nil_append,
      lookupKey_append, lookupKey_cons, lookupKey_optStrField, lookupKey_msgField, hXts]
    cases e.timestamp <;> simp
  have hml : lookupKey (knownPart e ++ X) "message" = e.message := by
    simp only [knownPart, List.append_assoc, List.cons_append, List.nil_append,
      lookupKey_append, lookupKey_cons, lookupKey_optStrField, lookupKey_msgField, hXmsg]
    cases e.message <;> simp
  have hcw : lookupKey (knownPart e ++ X) "cwd" = e.cwd.map Json.str := by
    simp only [knownPart, List.append_assoc, List.cons_append, List.nil_append,
      lookupKey_append, lookupKey_cons, lookupKey_optStrField, lookupKey_msgField, hXcwd]
    cases e.cwd <;> simp
  have hver : lookupKey (knownPart e ++ X) "version" = e.version.map Json.str := by
    simp only [knownPart, List.append_assoc, List.cons_append, List.nil_append,
      lookupKey_append, lookupKey_cons, lookupKey_optStrField, lookupKey_msgField, hXver]
    cases e.version <;> simp
  have hgb : lookupKey (knownPart e ++ X) "gitBranch" = e.git_branch.map Json.str := by
    simp only [knownPart, List.append_assoc, List.cons_append, List.nil_append,
      lookupKey_append, lookupKey_cons, lookupKey_optStrField, lookupKey_msgField, hXgb]
    cases e.git_branch <;> simp
  have g1 : getOptStrField (knownPart e ++ X) "uuid" = some e.uuid := by
    unfold getOptStrField; rw [huu]; cases e.uuid <;> rfl
  have g2 : getOptStrField (knownPart e ++ X) "parentUuid" = some e.parent_uuid := by
    unfold getOptStrField; rw [hpu]; cases e.parent_uuid <;> rfl
  have g3 : getOptStrField (knownPart e ++ X) "sessionId" = some e.session_id := by
    unfold getOptStrField; rw [hsid]; cases e.session_id <;> rfl
  have g4 : getOptStrField (knownPart e ++ X) "timestamp" = some e.timestamp := by
    unfold getOptStrField; rw [hts]; cases e.timestamp <;> rfl
  have g5 : getOptJsonField (knownPart e ++ X) "message" = some e.message := by
    unfold getOptJsonField; rw [hml]
    cases hm : e.message with
    | none => rfl
    | some m =>
      cases m with
      | null => exact absurd hm hmsg
      | bool b => rfl
      | num n => rfl
      | str s => rfl
      | arr elems => rfl
      | obj fields => rfl
  have g6 : getOptStrField (knownPart e ++ X) "cwd" = some e.cwd := by
    unfold getOptStrField; rw [hcw]; cases e.cwd <;> rfl
  have g7 : getOptStrField (knownPart e ++ X) "version" = some e.version := by
    unfold getOptStrField; rw [hver]; cases e.version <;> rfl
  have g8 : getOptStrField (knownPart e ++ X) "gitBranch" = some e.git_branch := by
    unfold getOptStrField; rw [hgb]; cases e.git_branch <;> rfl
  have hcount : (knownFieldNames.all fun k => countKey (knownPart e ++ X) k ≤ 1) = true := by
    rw [List.all_eq_true]
    intro k hk
    exact decide_eq_true (countKey_all_le_one e X hu k hk)
  have hextras : collectExtras (knownPart e ++ X) = X :=
    collectExtras_of_known_prefix (knownPart e) X (keysOf_knownPart_mem e) hs hu
  simp only [parseEntry, hcount, if_true, hty, g1, g2, g3, g4, g5, g6, g7, g8, hextras]
  rw [← hex]

theorem getOptJsonField_not_null {fields : List (String × Json)} {k : String}
    {m : Option Json} (h : getOptJsonField fields k = some m) : m ≠ some Json.null := by
  cases hv : lookupKey fields k with
  | none =>
    simp only [getOptJsonField, hv] at h
    injection h with h2
    rw [← h2]
    simp
  | some v =>
    cases v <;> simp only [getOptJsonField, hv] at h <;> injection h with h2 <;>
      rw [← h2] <;> simp

theorem parseEntry_shape : ∀ {j : Json} {e : ConversationEntry}, parseEntry j = some e →
    e.message ≠ some Json.null ∧
    ∃ X, e.extra = Json.obj X ∧ KeysSorted X ∧ ∀ kv ∈ X, kv.1 ∉ knownFieldNames := by
  intro j e h
  match j with
  | .null => exact Option.noConfusion h
  | .bool _ => exact Option.noConfusion h
  | .num _ => exact Option.noConfusion h
  | .str _ => exact Option.noConfusion h
  | .arr _ => exact Option.noConfusion h
  | .obj fields =>
    simp only [parseEntry] at h
    split at h
    · split at h
      · split at h
        · injection h with h2
          subst h2
          constructor
          · rename_i heqm _ _ _
            exact getOptJsonField_not_null (by assumption)
          · exact ⟨collectExtras fields, rfl, collectExtras_sorted fields,
              collectExtras_unknown fields⟩
        · exact Option.noConfusion h
      · exact Option.noConfusion h
    · exact Option.noConfusion h

theorem parseEntries_roundtrip : ∀ (doc : List Json) (es : List ConversationEntry),
    parseEntries doc = some es → parseEntries (write_to_file es) = some es := by
  intro doc
  induction doc with
  | nil =>
    intro es h
    simp only [parseEntries] at h
    injection h with h2
    subst h2
    rfl
  | cons j rest ih =>
    intro es h
    simp only [parseEntries] at h
    cases hj : parseEntry j with
    | none => rw [hj] at h; exact Option.noConfusion h
    | some e =>
      cases hr : parseEntries rest with
      | none => rw [hj, hr] at h; exact Option.noConfusion h
      | some es2 =>
        rw [hj, hr] at h
        injection h with h2
        subst h2
        obtain ⟨hmsg, X, hex, hs, hu⟩ := parseEntry_shape hj
        have hre := parseEntry_toJson e hmsg X hex hs hu
        have ih2 : parseEntries (List.map ConversationEntry.toJson es2) = some es2 := by
          simpa [write_to_file] using ih es2 hr
        simp only [write_to_file, List.map_cons, parseEntries, hre, ih2]

theorem make_non_uuid_key_eq (xxh3 : String → Nat) (e : ConversationEntry) :
    make_non_uuid_key xxh3 e = make_content_key xxh3 e := rfl

theorem entryIdentity_eq_byUuid {xxh3 : String → Nat} {e : ConversationEntry} {u : String} :
    entryIdentity xxh3 e = .byUuid u ↔ e.uuid = some u := by
  unfold entryIdentity
  cases he : e.uuid <;> simp

theorem entryIdentity_eq_byKey {xxh3 : String → Nat} {e : ConversationEntry} {k : String} :
    entryIdentity xxh3 e = .byKey k ↔ e.uuid = none ∧ make_content_key xxh3 e = k := by
  unfold entryIdentity
  cases he : e.uuid <;> simp

theorem mem_ids_byUuid (xxh3 : String → Nat) (l : List ConversationEntry) (u : String) :
    EntryIdentity.byUuid u ∈ l.map (entryIdentity xxh3) ↔ ∃ e ∈ l, e.uuid = some u := by
  rw [List.mem_map]
  constructor
  · rintro ⟨e, he, hid⟩
    exact ⟨e, he, entryIdentity_eq_byUuid.mp hid⟩
  · rintro ⟨e, he, hu⟩
    exact ⟨e, he, entryIdentity_eq_byUuid.mpr hu⟩

theorem mem_ids_byKey (xxh3 : String → Nat) (l : List ConversationEntry) (k : String) :
    EntryIdentity.byKey k ∈ l.map (entryIdentity xxh3) ↔
      ∃ e ∈ l, e.uuid = none ∧ make_content_key xxh3 e = k := by
  rw [List.mem_map]
  constructor
  · rintro ⟨e, he, hid⟩
    exact ⟨e, he, entryIdentity_eq_byKey.mp hid⟩
  · rintro ⟨e, he, hu⟩
    exact ⟨e, he, entryIdentity_eq_byKey.mpr hu⟩

theorem remoteKeepPred_iff (xxh3 : String → Nat) (localS : ConversationSession)
    (e : ConversationEntry) :
    remoteKeepPred xxh3 localS e = true ↔
      entryIdentity xxh3 e ∉ localS.entries.map (entryIdentity xxh3) := by
  unfold remoteKeepPred
  cases he : e.uuid with
  | some u =>
    have hid : entryIdentity xxh3 e = .byUuid u := entryIdentity_eq_byUuid.mpr he
    rw [hid, mem_ids_byUuid]
    simp [List.mem_filterMap]
  | none =>
    have hid : entryIdentity xxh3 e = .byKey (make_content_key xxh3 e) :=
      entryIdentity_eq_byKey.mpr ⟨he, rfl⟩
    rw [hid, mem_ids_byKey]
    simp [List.mem_map, List.mem_filter, make_non_uuid_key_eq]

theorem inlineDivergedMerge_perm (xxh3 : String → Nat) (L R : ConversationSession) :
    (inlineDivergedMerge xxh3 L R).Perm
      (L.entries ++ R.entries.filter (remoteKeepPred xxh3 L)) := by
  unfold inlineDivergedMerge
  exact List.perm_insertionSort _ _

theorem combined_ids_nodup (xxh3 : String → Nat) (L R : ConversationSession)
    (hL : (L.entries.map (entryIdentity xxh3)).Nodup)
    (hR : (R.entries.map (entryIdentity xxh3)).Nodup) :
    ((L.entries ++ R.entries.filter (remoteKeepPred xxh3 L)).map
      (entryIdentity xxh3)).Nodup := by
  rw [List.map_append, List.nodup_append]
  refine ⟨hL, ?_, ?_⟩
  · exact hR.sublist ((List.filter_sublist R.entries).map (entryIdentity xxh3))
  · intro a haL haF
    obtain ⟨e, heF, hid⟩ := List.mem_map.mp haF
    have hmem := List.mem_filter.mp heF
    have hnot := (remoteKeepPred_iff xxh3 L e).mp hmem.2
    rw [hid] at hnot
    exact hnot haL

theorem combined_ids_union (xxh3 : String → Nat) (L R : ConversationSession) :
    ∀ e ∈ L.entries ++ R.entries,
      ∃ e2 ∈ L.entries ++ R.entries.filter (remoteKeepPred xxh3 L),
        entryIdentity xxh3 e2 = entryIdentity xxh3 e := by
  intro e he
  rcases List.mem_append.mp he with heL | heR
  · exact ⟨e, List.mem_append_left _ heL, rfl⟩
  · by_cases hp : remoteKeepPred xxh3 L e = true
    · exact ⟨e, List.mem_append_right _ (List.mem_filter.mpr ⟨heR, hp⟩), rfl⟩
    · have hin : entryIdentity xxh3 e ∈ L.entries.map (entryIdentity xxh3) := by
        by_contra h2
        exact hp ((remoteKeepPred_iff xxh3 L e).mpr h2)
      obtain ⟨e2, he2, hid⟩ := List.mem_map.mp hin
      exact ⟨e2, List.mem_append_left _ he2, hid⟩

theorem writeBack_eq_filter_keep (xxh3 : String → Nat) (localS syncS : ConversationSession) :
    writeBackEntriesToAppend xxh3 localS syncS
      = syncS.entries.filter (remoteKeepPred xxh3 localS) := rfl

theorem remoteKeepPred_eq_decide (xxh3 : String → Nat) (localS : ConversationSession)
    (e : ConversationEntry) :
    remoteKeepPred xxh3 localS e
      = decide (entryIdentity xxh3 e ∉ localS.entries.map (entryIdentity xxh3)) := by
  cases h2 : remoteKeepPred xxh3 localS e with
  | false =>
    have hnot : ¬ entryIdentity xxh3 e ∉ localS.entries.map (entryIdentity xxh3) := by
      intro hP
      rw [(remoteKeepPred_iff xxh3 localS e).mpr hP] at h2
      cases h2
    have hmem : entryIdentity xxh3 e ∈ localS.entries.map (entryIdentity xxh3) :=
      not_not.mp hnot
    simp [hmem]
  | true =>
    have hP := (remoteKeepPred_iff xxh3 localS e).mp h2
    simp [hP]

/-- Spec-side byte-identical-shared-entries condition of §4.3: any local and
remote entry carrying the same uuid have the same canonical JSON text. -/
def sharedEntriesIdentical (L R : ConversationSession) : Prop :=
  ∀ eL ∈ L.entries, ∀ eR ∈ R.entries,
    eL.uuid.isSome = true → eL.uuid = eR.uuid → serializeEntry eL = serializeEntry eR

instance (L R : ConversationSession) : Decidable (sharedEntriesIdentical L R) := by
  unfold sharedEntriesIdentical
  exact inferInstance

theorem length_filter_uuid_le_one {L : ConversationSession}
    (hnd : (uuidsOf L).Nodup) (u : String) :
    (L.entries.filter (fun e => e.uuid = some u)).length ≤ 1 := by
  cases hF : L.entries.filter (fun e => e.uuid = some u) with
  | nil => simp
  | cons a tl =>
    cases htl : tl with
    | nil => simp
    | cons b tl2 =>
      exfalso
      subst htl
      have hsubF : List.Sublist (a :: b :: tl2) L.entries := by
        rw [← hF]; exact List.filter_sublist _
      have hsub : List.Sublist ((a :: b :: tl2).filterMap (·.uuid)) (uuidsOf L) :=
        hsubF.filterMap (·.uuid)
      have hnd2 : ((a :: b :: tl2).filterMap (·.uuid)).Nodup := hnd.sublist hsub
      have ha : a.uuid = some u := by
        have := List.mem_filter.mp (hF ▸ List.mem_cons_self a (b :: tl2))
        simpa using this.2
      have hb : b.uuid = some u := by
        have hbmem : b ∈ L.entries.filter (fun e => e.uuid = some u) := by
          rw [hF]; exact List.mem_cons_of_mem _ (List.mem_cons_self _ _)
        simpa using (List.mem_filter.mp hbmem).2
      rw [List.filterMap_cons, ha] at hnd2
      rw [List.filterMap_cons, hb] at hnd2
      rcases List.nodup_cons.mp hnd2 with ⟨hnotin, _⟩
      exact hnotin (List.mem_cons_self _ _)

theorem filter_uuid_singleton {L : ConversationSession}
    (hnd : (uuidsOf L).Nodup) {u : String} {eL : ConversationEntry}
    (hmem : eL ∈ L.entries) (hu : eL.uuid = some u) :
    L.entries.filter (fun e => e.uuid = some u) = [eL] := by
  have hin : eL ∈ L.entries.filter (fun e => e.uuid = some u) :=
    List.mem_filter.mpr ⟨hmem, by simp [hu]⟩
  cases hF : L.entries.filter (fun e => e.uuid = some u) with
  | nil => rw [hF] at hin; cases hin
  | cons a tl =>
    have hlen := length_filter_uuid_le_one hnd u
    rw [hF] at hlen
    cases tl with
    | cons b tl2 => simp at hlen
    | nil =>
      rw [hF] at hin
      simp only [List.mem_singleton] at hin
      rw [hin]

theorem mem_of_getLast?_some {α : Type} : ∀ {l : List α} {a : α}, l.getLast? = some a → a ∈ l := by
  intro l
  induction l with
  | nil => intro a h; cases h
  | cons x tl ih =>
    intro a h
    cases tl with
    | nil =>
      simp only [List.getLast?_singleton] at h
      injection h with h2
      rw [h2]
      exact List.mem_cons_self _ _
    | cons y tl2 =>
      rw [List.getLast?_cons_cons] at h
      exact List.mem_cons_of_mem _ (ih h)

theorem verify_true_of_shared {L R : ConversationSession}
    (hsh : sharedEntriesIdentical L R) :
    verify_common_entries_identical L R = true := by
  unfold verify_common_entries_identical
  rw [List.all_eq_true]
  intro e he
  cases hu : e.uuid with
  | none => rfl
  | some u =>
    show (match lastLocalJson L u with
          | none => true
          | some localJson => decide (serializeEntry e = localJson)) = true
    cases hlast : lastLocalJson L u with
    | none => rfl
    | some j =>
      simp only [decide_eq_true_eq]
      unfold lastLocalJson at hlast
      cases hgl : (L.entries.filter (fun e2 => e2.uuid = some u)).getLast? with
      | none => rw [hgl] at hlast; exact Option.noConfusion hlast
      | some eL =>
        rw [hgl] at hlast
        injection hlast with hj
        have heLmem : eL ∈ L.entries.filter (fun e2 => e2.uuid = some u) :=
          mem_of_getLast?_some hgl
        rcases List.mem_filter.mp heLmem with ⟨heL, huuL⟩
        have huuL2 : eL.uuid = some u := by simpa using huuL
        have hse := hsh eL heL e he (by simp [huuL2]) (by rw [huuL2, hu])
        rw [← hj, hse]

theorem shared_of_verify {L R : ConversationSession}
    (hnd : (uuidsOf L).Nodup)
    (hv : verify_common_entries_identical L R = true) :
    sharedEntriesIdentical L R := by
  intro eL hL eR hR hsome hequ
  cases hu : eL.uuid with
  | none => rw [hu] at hsome; cases hsome
  | some u =>
    have huR : eR.uuid = some u := by rw [← hequ, hu]
    have hfu : L.entries.filter (fun e => e.uuid = some u) = [eL] :=
      filter_uuid_singleton hnd hL hu
    have hlast : lastLocalJson L u = some (serializeEntry eL) := by
      unfold lastLocalJson
      rw [hfu]
      rfl
    unfold verify_common_entries_identical at hv
    rw [List.all_eq_true] at hv
    have h3 := hv eR hR
    rw [huR] at h3
    have h4 : (match lastLocalJson L u with
          | none => true
          | some localJson => decide (serializeEntry eR = localJson)) = true := h3
    rw [hlast] at h4
    exact (of_decide_eq_true h4).symm

theorem all_contains_iff (A B : List String) :
    (A.all (B.contains ·)) = true ↔ ∀ u ∈ A, u ∈ B := by
  simp [List.all_eq_true]

theorem detect_eq_filterMap (xxh3 : String → Nat)
    (locals remotes : List ConversationSession) :
    ConflictDetector.detect xxh3 locals remotes
      = remotes.filterMap (conflictFor xxh3 locals) := by
  suffices h : ∀ (acc : List Conflict) (rs : List ConversationSession),
      rs.foldl (fun acc r => match conflictFor xxh3 locals r with
        | some c => acc ++ [c]
        | none => acc) acc = acc ++ rs.filterMap (conflictFor xxh3 locals) by
    simpa [ConflictDetector.detect] using h [] remotes
  intro acc rs
  induction rs generalizing acc with
  | nil => simp
  | cons r rest ih =>
    cases hc : conflictFor xxh3 locals r <;>
      simp [hc, ih, List.filterMap_cons]

theorem lookupSession_mem {sessions : List ConversationSession} {sid : String}
    {s : ConversationSession} (h : lookupSession sessions sid = some s) :
    s ∈ sessions ∧ s.session_id = sid := by
  unfold lookupSession at h
  refine ⟨List.mem_reverse.mp (List.mem_of_find?_eq_some h), ?_⟩
  simpa using List.find?_some h

theorem lookupSession_eq_of_nodup {sessions : List ConversationSession}
    (hnd : (sessions.map (·.session_id)).Nodup)
    {l : ConversationSession} (hl : l ∈ sessions) :
    lookupSession sessions l.session_id = some l := by
  unfold lookupSession
  cases hfind : sessions.reverse.find? (fun s => s.session_id = l.session_id) with
  | none =>
    exfalso
    rw [List.find?_eq_none] at hfind
    exact hfind l (List.mem_reverse.mpr hl) (by simp)
  | some s2 =>
    have hmem : s2 ∈ sessions := List.mem_reverse.mp (List.mem_of_find?_eq_some hfind)
    have hsid : s2.session_id = l.session_id := by simpa using List.find?_some hfind
    have : s2 = l := List.inj_on_of_nodup_map hnd hmem hl hsid
    rw [this]

theorem conflictFor_eq_some {xxh3 : String → Nat} {locals : List ConversationSession}
    {r : ConversationSession} {c : Conflict}
    (h : conflictFor xxh3 locals r = some c) :
    c.session_id = r.session_id ∧ c.resolution = ConflictResolution.Pending ∧
    ∃ l ∈ locals, l.session_id = r.session_id ∧
      analyze_session_relationship xxh3 l r = .diverged ∧ c = Conflict.new xxh3 l r := by
  unfold conflictFor at h
  cases hl : lookupSession locals r.session_id with
  | none => rw [hl] at h; exact Option.noConfusion h
  | some l =>
    rw [hl] at h
    obtain ⟨hmem, hsid⟩ := lookupSession_mem hl
    have h2 : (match analyze_session_relationship xxh3 l r with
        | SessionRelationship.diverged => some (Conflict.new xxh3 l r)
        | _ => none) = some c := h
    cases ha : analyze_session_relationship xxh3 l r <;> rw [ha] at h2 <;>
      first
      | exact Option.noConfusion h2
      | (injection h2 with h3
         rw [← h3]
         exact ⟨hsid, rfl, l, hmem, hsid, ha, rfl⟩)

theorem conflictFor_of_lookup {xxh3 : String → Nat} {locals : List ConversationSession}
    {r l : ConversationSession} (hl : lookupSession locals r.session_id = some l) :
    conflictFor xxh3 locals r
      = if analyze_session_relationship xxh3 l r = .diverged
        then some (Conflict.new xxh3 l r) else none := by
  unfold conflictFor
  rw [hl]
  cases ha : analyze_session_relationship xxh3 l r <;> simp [ha]

theorem detect_countP_zero (xxh3 : String → Nat) (locals : List ConversationSession)
    (sid : String) :
    ∀ (rs : List ConversationSession), (∀ r2 ∈ rs, r2.session_id ≠ sid) →
      ((rs.filterMap (conflictFor xxh3 locals)).countP (fun c => c.session_id = sid)) = 0 := by
  intro rs
  induction rs with
  | nil => intro _; rfl
  | cons r2 rest ih =>
    intro hall
    have hne : r2.session_id ≠ sid := hall r2 (List.mem_cons_self _ _)
    have htl := ih (fun r3 h3 => hall r3 (List.mem_cons_of_mem _ h3))
    cases hc : conflictFor xxh3 locals r2 with
    | none => simpa [List.filterMap_cons, hc] using htl
    | some c =>
      have hcs : c.session_id = r2.session_id := (conflictFor_eq_some hc).1
      have : ¬ (c.session_id = sid) := by rw [hcs]; exact hne
      simp [List.filterMap_cons, hc, List.countP_cons, this, htl]

theorem detect_countP (xxh3 : String → Nat) (locals : List ConversationSession)
    {l : ConversationSession} :
    ∀ (remotes : List ConversationSession) (r : ConversationSession),
      (remotes.map (·.session_id)).Nodup → r ∈ remotes →
      lookupSession locals r.session_id = some l →
      ((remotes.filterMap (conflictFor xxh3 locals)).countP
          (fun c => c.session_id = r.session_id))
        = if analyze_session_relationship xxh3 l r = .diverged then 1 else 0 := by
  intro remotes
  induction remotes with
  | nil => intro r _ hr; cases hr
  | cons r2 rest ih =>
    intro r hnd hr hl
    rw [List.map_cons] at hnd
    rcases List.nodup_cons.mp hnd with ⟨hnotin, hndrest⟩
    rcases List.mem_cons.mp hr with heq | hmem
    · subst heq
      have hall : ∀ r3 ∈ rest, r3.session_id ≠ r.session_id := by
        intro r3 h3 he
        exact hnotin (he ▸ List.mem_map_of_mem (·.session_id) h3)
      have hzero := detect_countP_zero xxh3 locals r.session_id rest hall
      have hsid := (lookupSession_mem hl).2
      cases ha : analyze_session_relationship xxh3 l r <;>
        simp [List.filterMap_cons, conflictFor_of_lookup hl, ha, List.countP_cons,
          Conflict.new, hsid, hzero]
    · have hne : r2.session_id ≠ r.session_id := by
        intro he
        exact hnotin (he ▸ List.mem_map_of_mem (·.session_id) hmem)
      have htl := ih r hndrest hmem hl
      cases hc : conflictFor xxh3 locals r2 with
      | none => simpa [List.filterMap_cons, hc] using htl
      | some c =>
        have hcs : c.session_id = r2.session_id := (conflictFor_eq_some hc).1
        have : ¬ (c.session_id = r.session_id) := by rw [hcs]; exact hne
        simp [List.filterMap_cons, hc, List.countP_cons, this, htl]

/-- Byte suffix produced by appending a list of entries: each entry's JSON line
in order (the spec's "one JSON object per line each followed by a newline"). -/
def appendedSuffix : List ConversationEntry → String
  | [] => ""
  | e :: rest => entryLine e ++ appendedSuffix rest

theorem foldl_entryLine : ∀ (l : List ConversationEntry) (base : String),
    l.foldl (fun acc e => acc ++ entryLine e) base = base ++ appendedSuffix l := by
  intro l
  induction l with
  | nil => intro base; simp [appendedSuffix]
  | cons e rest ih =>
    intro base
    simp only [List.foldl_cons, appendedSuffix]
    rw [ih, String.append_assoc]

theorem combinedJson_eq_appendedSuffix (entries : List ConversationEntry) :
    combinedJson entries = appendedSuffix entries := by
  have h : ∀ (l : List ConversationEntry) (base : String),
      l.foldl (fun acc e => acc ++ serializeEntry e ++ "\n") base = base ++ appendedSuffix l := by
    intro l
    induction l with
    | nil => intro base; simp [appendedSuffix]
    | cons e rest ih =>
      intro base
      simp only [List.foldl_cons, appendedSuffix]
      rw [ih]
      simp [entryLine, String.append_assoc]
  simpa [combinedJson] using h entries ""

/-- Valid entries of one history file: non-blank lines that parse. -/
def validHistoryEntries (pj : String → Option Json) (lines : List String) :
    List HistoryEntry :=
  lines.filterMap (fun line => if isBlankLine line then none else HistoryEntry.parse pj line)

/-- Invariant of the dedup fold: accumulated keys are exactly the keys of the
accumulated entries, and those keys are pairwise distinct. -/
def DedupInv (st : List (String × Int) × List HistoryEntry) : Prop :=
  (st.2.map HistoryEntry.dedup_key).Nodup ∧
  ∀ k, k ∈ st.1 ↔ k ∈ st.2.map HistoryEntry.dedup_key

theorem dedupPass_spec (pj : String → Option Json) :
    ∀ (lines : List String) (st : List (String × Int) × List HistoryEntry),
      DedupInv st →
      DedupInv (dedupPass pj lines st) ∧
      (∀ e ∈ st.2, e ∈ (dedupPass pj lines st).2) ∧
      (∀ e ∈ (dedupPass pj lines st).2, e ∈ st.2 ∨ e ∈ validHistoryEntries pj lines) ∧
      (∀ e ∈ validHistoryEntries pj lines,
        e.dedup_key ∈ ((dedupPass pj lines st).2.map HistoryEntry.dedup_key)) := by
  intro lines
  induction lines with
  | nil =>
    intro st hinv
    refine ⟨hinv, fun e he => he, fun e he => Or.inl he, ?_⟩
    intro e he
    simp [validHistoryEntries] at he
  | cons line rest ih =>
    intro st hinv
    by_cases hb : isBlankLine line = true
    · have hstep : dedupPass pj (line :: rest) st = dedupPass pj rest st := by
        simp [dedupPass, List.foldl_cons, hb]
      have hval : validHistoryEntries pj (line :: rest) = validHistoryEntries pj rest := by
        simp [validHistoryEntries, List.filterMap_cons, hb]
      rw [hstep, hval]
      exact ih st hinv
    · cases hp : HistoryEntry.parse pj line with
      | none =>
        have hstep : dedupPass pj (line :: rest) st = dedupPass pj rest st := by
          simp [dedupPass, List.foldl_cons, hb, hp]
        have hval : validHistoryEntries pj (line :: rest) = validHistoryEntries pj rest := by
          simp [validHistoryEntries, List.filterMap_cons, hb, hp]
        rw [hstep, hval]
        exact ih st hinv
      | some entry =>
        have hval : validHistoryEntries pj (line :: rest)
            = entry :: validHistoryEntries pj rest := by
          simp [validHistoryEntries, List.filterMap_cons, hb, hp]
        by_cases hseen : st.1.contains entry.dedup_key = true
        · have hseen2 : entry.dedup_key ∈ st.1 := by simpa using hseen
          have hstep : dedupPass pj (line :: rest) st = dedupPass pj rest st := by
            simp [dedupPass, List.foldl_cons, hb, hp, hseen2]
          rw [hstep, hval]
          obtain ⟨hinv2, hext, hprov, hcov⟩ := ih st hinv
          refine ⟨hinv2, hext, ?_, ?_⟩
          · intro e he
            rcases hprov e he with h1 | h1
            · exact Or.inl h1
            · exact Or.inr (List.mem_cons_of_mem _ h1)
          · intro e he
            rcases List.mem_cons.mp he with heq | hmem
            · subst heq
              have hk : e.dedup_key ∈ st.2.map HistoryEntry.dedup_key :=
                (hinv.2 e.dedup_key).mp (by simpa using hseen)
              obtain ⟨e2, he2, hke⟩ := List.mem_map.mp hk
              exact List.mem_map.mpr ⟨e2, hext e2 he2, hke⟩
            · exact hcov e hmem
        · have hseen2 : entry.dedup_key ∉ st.1 := by simpa using hseen
          have hstep : dedupPass pj (line :: rest) st
              = dedupPass pj rest (entry.dedup_key :: st.1, st.2 ++ [entry]) := by
            simp [dedupPass, List.foldl_cons, hb, hp, hseen2]
          have hknotin : entry.dedup_key ∉ st.2.map HistoryEntry.dedup_key := by
            intro hk
            have := (hinv.2 entry.dedup_key).mpr hk
            simp [this] at hseen
          have hinv2 : DedupInv (entry.dedup_key :: st.1, st.2 ++ [entry]) := by
            constructor
            · simp only [List.map_append, List.map_cons, List.map_nil]
              rw [List.nodup_append]
              refine ⟨hinv.1, by simp, ?_⟩
              intro a ha hb2
              simp only [List.mem_singleton] at hb2
              subst hb2
              exact hknotin ha
            · intro k
              simp only [List.mem_cons, List.map_append, List.map_cons, List.map_nil,
                List.mem_append, List.mem_singleton]
              rw [hinv.2 k]
              tauto
          rw [hstep, hval]
          obtain ⟨hinv3, hext, hprov, hcov⟩ := ih _ hinv2
          refine ⟨hinv3, ?_, ?_, ?_⟩
          · intro e he
            exact hext e (by simp [he])
          · intro e he
            rcases hprov e he with h1 | h1
            · rcases List.mem_append.mp h1 with h2 | h2
              · exact Or.inl h2
              · simp only [List.mem_singleton] at h2
                subst h2
                exact Or.inr (List.mem_cons_self _ _)
            · exact Or.inr (List.mem_cons_of_mem _ h1)
          · intro e he
            rcases List.mem_cons.mp he with heq | hmem
            · subst heq
              have hmem2 : e ∈ (dedupPass pj rest (e.dedup_key :: st.1, st.2 ++ [e])).2 :=
                hext e (by simp)
              exact List.mem_map_of_mem _ hmem2
            · exact hcov e hmem

/-- Lower-case hexadecimal digits. -/
def lowerHexChars : List Char :=
  "0123456789abcdef".data

theorem hexDigitChar_mem {n : Nat} (h : n < 16) : hexDigitChar n ∈ lowerHexChars := by
  interval_cases n <;> decide

theorem hex16_length (n : Nat) : (hex16 n).length = 16 := by
  simp [hex16, String.length]

theorem hex16_chars (n : Nat) : ∀ c ∈ (hex16 n).data, c ∈ lowerHexChars := by
  intro c hc
  have hc2 : c ∈ (List.range 16).map fun i => hexDigitChar (n / 16 ^ (15 - i) % 16) := hc
  obtain ⟨i, _, hcc⟩ := List.mem_map.mp hc2
  exact hcc ▸ hexDigitChar_mem (Nat.mod_lt _ (by norm_num))

/-- Concrete sessions for witnesses and counterexamples. -/
def cxL1 : ConversationSession :=
  { session_id := "s", entries := [{ entry_type := "user", uuid := some "a" }],
    file_path := "l" }

/-- Remote session whose uuid "u" occurs on two entries. -/
def cxR1 : ConversationSession :=
  { session_id := "s",
    entries := [{ entry_type := "user", uuid := some "u" },
                { entry_type := "user", uuid := some "u" }],
    file_path := "r" }

/-- C1 counterexample: the inline diverged merge does not register remote
identities while walking the remote entries, so a remote session carrying the
same uuid twice yields an output in which that identity appears twice — the
deduplication half of the claim fails as stated. -/
theorem c1_counterexample :
    ¬ (((inlineDivergedMerge demoHash cxL1 cxR1).map (entryIdentity demoHash)).Nodup) := by
  decide

/-- C1 (amended: both inputs duplicate-free under the entry identity): the
inline identity-based union of two same-id sessions contains every identity of
either input, and no identity twice. -/
theorem c1_inline_merge_union_dedup (xxh3 : String → Nat) (L R : ConversationSession)
    (hL : (L.entries.map (entryIdentity xxh3)).Nodup)
    (hR : (R.entries.map (entryIdentity xxh3)).Nodup) :
    (∀ e ∈ L.entries ++ R.entries,
      ∃ e2 ∈ inlineDivergedMerge xxh3 L R,
        entryIdentity xxh3 e2 = entryIdentity xxh3 e)
    ∧ ((inlineDivergedMerge xxh3 L R).map (entryIdentity xxh3)).Nodup := by
  have hperm := inlineDivergedMerge_perm xxh3 L R
  constructor
  · intro e he
    obtain ⟨e2, he2, hid⟩ := combined_ids_union xxh3 L R e he
    exact ⟨e2, hperm.mem_iff.mpr he2, hid⟩
  · exact ((hperm.map (entryIdentity xxh3)).nodup_iff).mpr
      (combined_ids_nodup xxh3 L R hL hR)

/-- Duplicate-free local session for the C1 witness. -/
def cwL1 : ConversationSession :=
  { session_id := "s",
    entries := [{ entry_type := "user", uuid := some "1",
                  timestamp := some "2025-01-01T00:00:00Z" }],
    file_path := "l" }

/-- Duplicate-free remote session for the C1 witness. -/
def cwR1 : ConversationSession :=
  { session_id := "s",
    entries := [{ entry_type := "user", uuid := some "1",
                  timestamp := some "2025-01-01T00:00:00Z" },
                { entry_type := "assistant", uuid := some "2",
                  timestamp := some "2025-01-01T00:01:00Z" }],
    file_path := "r" }

theorem c1_inline_merge_union_dedup_witness :
    (∀ e ∈ cwL1.entries ++ cwR1.entries,
      ∃ e2 ∈ inlineDivergedMerge demoHash cwL1 cwR1,
        entryIdentity demoHash e2 = entryIdentity demoHash e)
    ∧ ((inlineDivergedMerge demoHash cwL1 cwR1).map (entryIdentity demoHash)).Nodup :=
  c1_inline_merge_union_dedup demoHash cwL1 cwR1 (by decide) (by decide)

/-- C2: during the append-only write-back, the entries appended for a session
present locally are exactly the transport entries whose identity (uuid when
present, else content key) does not occur among the identities of the re-read
local session, kept in transport order (a sublist of the transport entries);
the resulting local file is the old entries followed by those; a session with
no local counterpart is written whole. -/
theorem c2_writeback_append_exact (xxh3 : String → Nat)
    (localS syncS : ConversationSession) :
    writeBackEntriesToAppend xxh3 localS syncS
      = syncS.entries.filter (fun e =>
          decide (entryIdentity xxh3 e ∉ localS.entries.map (entryIdentity xxh3)))
    ∧ writeBackResult xxh3 (some localS) syncS
      = localS.entries ++ writeBackEntriesToAppend xxh3 localS syncS
    ∧ writeBackResult xxh3 none syncS = syncS.entries
    ∧ List.Sublist (writeBackEntriesToAppend xxh3 localS syncS) syncS.entries := by
  refine ⟨?_, rfl, rfl, ?_⟩
  · rw [writeBack_eq_filter_keep]
    exact List.filter_congr (fun e _ => remoteKeepPred_eq_decide xxh3 localS e)
  · rw [writeBack_eq_filter_keep]
    exact List.filter_sublist _

/-- Local session of the C3 counterexample: uuid "u" occurs on two entries
with different content. -/
def cxL3 : ConversationSession :=
  { session_id := "s",
    entries := [{ entry_type := "user", uuid := some "u", message := some (Json.str "1") },
                { entry_type := "user", uuid := some "u", message := some (Json.str "2") }],
    file_path := "l" }

/-- Remote session of the C3 counterexample. -/
def cxR3 : ConversationSession :=
  { session_id := "s",
    entries := [{ entry_type := "user", uuid := some "u", message := some (Json.str "2") },
                { entry_type := "user", uuid := some "w" }],
    file_path := "r" }

/-- C3 counterexample: with a duplicated uuid in the local session, the hashes
differ, neither prefix condition of the claim holds (a shared uuid carries
different content), so the claim demands `Diverged`; but the analyzer compares
each remote entry only against the *last* local entry with that uuid and
returns `LocalIsPrefix`. -/
theorem c3_counterexample :
    (cxL3.content_hash demoHash ≠ cxR3.content_hash demoHash)
    ∧ ¬ ((∀ u ∈ uuidsOf cxL3, u ∈ uuidsOf cxR3)
          ∧ ¬ (∀ u ∈ uuidsOf cxR3, u ∈ uuidsOf cxL3)
          ∧ sharedEntriesIdentical cxL3 cxR3)
    ∧ ¬ ((∀ u ∈ uuidsOf cxR3, u ∈ uuidsOf cxL3)
          ∧ ¬ (∀ u ∈ uuidsOf cxL3, u ∈ uuidsOf cxR3)
          ∧ sharedEntriesIdentical cxL3 cxR3)
    ∧ analyze_session_relationship demoHash cxL3 cxR3 = SessionRelationship.localPfx := by
  decide

/-- C3 (amended: sessions in which no uuid occurs on two entries of the same
session): the analyzer returns `Identical` when the content hashes are equal;
`LocalIsPrefix` when the hashes differ, the local uuid set is contained in the
remote one but not conversely, and shared uuids are byte-identical;
symmetrically `RemoteIsPrefix`; and `Diverged` in every other case. -/
theorem c3_analyze_classification (xxh3 : String → Nat) (L R : ConversationSession)
    (hndL : (uuidsOf L).Nodup) (hndR : (uuidsOf R).Nodup) :
    (L.content_hash xxh3 = R.content_hash xxh3 →
      analyze_session_relationship xxh3 L R = SessionRelationship.identical)
    ∧ (L.content_hash xxh3 ≠ R.content_hash xxh3 →
        (∀ u ∈ uuidsOf L, u ∈ uuidsOf R) → ¬ (∀ u ∈ uuidsOf R, u ∈ uuidsOf L) →
        sharedEntriesIdentical L R →
        analyze_session_relationship xxh3 L R = SessionRelationship.localPfx)
    ∧ (L.content_hash xxh3 ≠ R.content_hash xxh3 →
        (∀ u ∈ uuidsOf R, u ∈ uuidsOf L) → ¬ (∀ u ∈ uuidsOf L, u ∈ uuidsOf R) →
        sharedEntriesIdentical L R →
        analyze_session_relationship xxh3 L R = SessionRelationship.remotePfx)
    ∧ (L.content_hash xxh3 ≠ R.content_hash xxh3 →
        ¬ ((∀ u ∈ uuidsOf L, u ∈ uuidsOf R) ∧ ¬ (∀ u ∈ uuidsOf R, u ∈ uuidsOf L)
            ∧ sharedEntriesIdentical L R) →
        ¬ ((∀ u ∈ uuidsOf R, u ∈ uuidsOf L) ∧ ¬ (∀ u ∈ uuidsOf L, u ∈ uuidsOf R)
            ∧ sharedEntriesIdentical L R) →
        analyze_session_relationship xxh3 L R = SessionRelationship.diverged) := by
  refine ⟨?_, ?_, ?_, ?_⟩
  · intro hh
    simp [analyze_session_relationship, hh]
  · intro hh hsub hnsub hsh
    have hbL : ((uuidsOf L).all ((uuidsOf R).contains ·)) = true :=
      (all_contains_iff _ _).mpr hsub
    have hbR : ((uuidsOf R).all ((uuidsOf L).contains ·)) = false := by
      cases hcase : ((uuidsOf R).all ((uuidsOf L).contains ·)) with
      | false => rfl
      | true => exact absurd ((all_contains_iff _ _).mp hcase) hnsub
    have hv := verify_true_of_shared hsh
    simp only [analyze_session_relationship]
    rw [if_neg hh, hbL, hbR, hv]
    rfl
  · intro hh hsub hnsub hsh
    have hbR : ((uuidsOf R).all ((uuidsOf L).contains ·)) = true :=
      (all_contains_iff _ _).mpr hsub
    have hbL : ((uuidsOf L).all ((uuidsOf R).contains ·)) = false := by
      cases hcase : ((uuidsOf L).all ((uuidsOf R).contains ·)) with
      | false => rfl
      | true => exact absurd ((all_contains_iff _ _).mp hcase) hnsub
    have hv := verify_true_of_shared hsh
    simp only [analyze_session_relationship]
    rw [if_neg hh, hbL, hbR, hv]
    rfl
  · intro hh hn2 hn3
    cases hbL : ((uuidsOf L).all ((uuidsOf R).contains ·)) with
    | true =>
      cases hbR : ((uuidsOf R).all ((uuidsOf L).contains ·)) with
      | true =>
        simp only [analyze_session_relationship]
        rw [if_neg hh, hbL, hbR]
        rfl
      | false =>
        cases hv : verify_common_entries_identical L R with
        | false =>
          simp only [analyze_session_relationship]
          rw [if_neg hh, hbL, hbR, hv]
          rfl
        | true =>
          exfalso
          refine hn2 ⟨(all_contains_iff _ _).mp hbL, ?_, shared_of_verify hndL hv⟩
          intro hsub2
          rw [(all_contains_iff _ _).mpr hsub2] at hbR
          cases hbR
    | false =>
      cases hbR : ((uuidsOf R).all ((uuidsOf L).contains ·)) with
      | false =>
        simp only [analyze_session_relationship]
        rw [if_neg hh, hbL, hbR]
        rfl
      | true =>
        cases hv : verify_common_entries_identical L R with
        | false =>
          simp only [analyze_session_relationship]
          rw [if_neg hh, hbL, hbR, hv]
          rfl
        | true =>
          exfalso
          refine hn3 ⟨(all_contains_iff _ _).mp hbR, ?_, shared_of_verify hndL hv⟩
          intro hsub2
          rw [(all_contains_iff _ _).mpr hsub2] at hbL
          cases hbL

/-- Local session of the C3 witness. -/
def cwL3 : ConversationSession :=
  { session_id := "s",
    entries := [{ entry_type := "user", uuid := some "1",
                  message := some (Json.str "hello") }],
    file_path := "l" }

/-- Remote session of the C3 witness: a strict uuid superset with the shared
entry byte-identical. -/
def cwR3 : ConversationSession :=
  { session_id := "s",
    entries := [{ entry_type := "user", uuid := some "1",
                  message := some (Json.str "hello") },
                { entry_type := "assistant", uuid := some "2" }],
    file_path := "r" }

theorem c3_analyze_classification_witness :
    analyze_session_relationship demoHash cwL3 cwR3 = SessionRelationship.localPfx :=
  (c3_analyze_classification demoHash cwL3 cwR3 (by decide) (by decide)).2.1
    (by decide) (by decide) (by decide) (by decide)

/-- C4: with unique sessionIds per list, the detector records exactly one
conflict for a same-id pair classified Diverged and zero conflicts otherwise,
and every recorded conflict stems from a diverged same-id pair and is
initialized with resolution `Pending`. -/
theorem c4_detector_conflicts (xxh3 : String → Nat)
    (locals remotes : List ConversationSession)
    (h1 : (locals.map (·.session_id)).Nodup)
    (h2 : (remotes.map (·.session_id)).Nodup) :
    (∀ r ∈ remotes, ∀ l ∈ locals, l.session_id = r.session_id →
      (ConflictDetector.detect xxh3 locals remotes).countP
          (fun c => c.session_id = r.session_id)
        = if analyze_session_relationship xxh3 l r = SessionRelationship.diverged
          then 1 else 0)
    ∧ ∀ c ∈ ConflictDetector.detect xxh3 locals remotes,
        c.resolution = ConflictResolution.Pending ∧
        ∃ l ∈ locals, ∃ r ∈ remotes, l.session_id = r.session_id ∧
          analyze_session_relationship xxh3 l r = SessionRelationship.diverged := by
  rw [detect_eq_filterMap]
  constructor
  · intro r hr l hl hsid
    have hlook : lookupSession locals r.session_id = some l := by
      rw [← hsid]
      exact lookupSession_eq_of_nodup h1 hl
    exact detect_countP xxh3 locals remotes r h2 hr hlook
  · intro c hc
    obtain ⟨r, hrmem, hcf⟩ := List.mem_filterMap.mp hc
    obtain ⟨hcs, hres, l, hlmem, hlsid, hdiv, hceq⟩ := conflictFor_eq_some hcf
    exact ⟨hres, l, hlmem, r, hrmem, hlsid, hdiv⟩

/-- Local session of the C4 witness (diverged against `cwR4`). -/
def cwL4 : ConversationSession :=
  { session_id := "s",
    entries := [{ entry_type := "user", uuid := some "a" }],
    file_path := "l" }

/-- Remote session of the C4 witness. -/
def cwR4 : ConversationSession :=
  { session_id := "s",
    entries := [{ entry_type := "assistant", uuid := some "b" }],
    file_path := "r" }

theorem c4_detector_conflicts_witness :
    (ConflictDetector.detect demoHash [cwL4] [cwR4]).countP
        (fun c => c.session_id = cwR4.session_id)
      = if analyze_session_relationship demoHash cwL4 cwR4 = SessionRelationship.diverged
        then 1 else 0 :=
  (c4_detector_conflicts demoHash [cwL4] [cwR4] (by decide) (by decide)).1
    cwR4 (by decide) cwL4 (by decide) (by decide)

/-- C5: a successful append leaves the prior byte content of the file as an
unchanged prefix, the appended suffix is exactly the entries serialized one
JSON object per line each followed by a newline, an absent file is created
holding exactly that suffix, and the data is durable when the call returns. -/
theorem c5_append_only (prior : Option FileState) (entries : List ConversationEntry) :
    (∀ f, prior = some f →
      (append_entries_to_file prior entries).content = f.content ++ appendedSuffix entries)
    ∧ (prior = none →
      (append_entries_to_file prior entries).content = appendedSuffix entries)
    ∧ (append_entries_to_file prior entries).durable
        = (append_entries_to_file prior entries).content := by
  refine ⟨?_, ?_, rfl⟩
  · intro f hf
    subst hf
    simp only [append_entries_to_file]
    rw [foldl_entryLine]
  · intro hf
    subst hf
    simp only [append_entries_to_file]
    rw [foldl_entryLine]
    simp

/-- File state of the C5 witness. -/
def cwFile5 : FileState :=
  { content := "old-line\n", durable := "old-line\n" }

/-- Entry appended by the C5 witness. -/
def cwEntry5 : ConversationEntry :=
  { entry_type := "user", uuid := some "u5" }

theorem c5_append_only_witness :
    (append_entries_to_file (some cwFile5) [cwEntry5]).content
      = cwFile5.content ++ appendedSuffix [cwEntry5] :=
  (c5_append_only (some cwFile5) [cwEntry5]).1 cwFile5 rfl

/-- Lines of the priority file of a history merge. -/
def priorityLines (sourceLines targetLines : Option (List String)) :
    MergePriority → List String
  | .TargetFirst => targetLines.getD []
  | .SourceFirst => sourceLines.getD []

/-- Lines of the non-priority file of a history merge. -/
def secondaryLines (sourceLines targetLines : Option (List String)) :
    MergePriority → List String
  | .TargetFirst => sourceLines.getD []
  | .SourceFirst => targetLines.getD []

theorem validHistoryEntries_line {pj : String → Option Json} {lines : List String}
    {e : HistoryEntry} (h : e ∈ validHistoryEntries pj lines) : e.line ∈ lines := by
  obtain ⟨line, hline, heq⟩ := List.mem_filterMap.mp h
  by_cases hb : isBlankLine line = true
  · rw [if_pos hb] at heq
    exact Option.noConfusion heq
  · rw [if_neg hb] at heq
    unfold HistoryEntry.parse at heq
    cases hpj : pj line with
    | none => rw [hpj] at heq; exact Option.noConfusion heq
    | some v =>
      rw [hpj] at heq
      have heq2 : (match (v.getKey "sessionId").bind Json.asStr,
          (v.getKey "timestamp").bind Json.asInt with
        | some sid, some ts =>
          if sid = "" then none
          else if ts = 0 then none
          else some { line := line, session_id := sid, timestamp := ts,
                      display := (((v.getKey "display").bind Json.asStr).getD "") }
        | _, _ => none) = some e := heq
      cases hsid : (v.getKey "sessionId").bind Json.asStr with
      | none =>
        rw [hsid] at heq2
        cases hts : (v.getKey "timestamp").bind Json.asInt <;> rw [hts] at heq2 <;>
          exact Option.noConfusion heq2
      | some sid =>
        cases hts : (v.getKey "timestamp").bind Json.asInt with
        | none => rw [hsid, hts] at heq2; exact Option.noConfusion heq2
        | some ts =>
          rw [hsid, hts] at heq2
          have heq3 : (if sid = "" then none
              else if ts = 0 then none
              else some { line := line, session_id := sid, timestamp := ts,
                          display := (((v.getKey "display").bind Json.asStr).getD "") })
                = some e := heq2
          by_cases hs0 : sid = ""
          · rw [if_pos hs0] at heq3; exact Option.noConfusion heq3
          · rw [if_neg hs0] at heq3
            by_cases ht0 : ts = 0
            · rw [if_pos ht0] at heq3; exact Option.noConfusion heq3
            · rw [if_neg ht0] at heq3
              injection heq3 with h3
              rw [← h3]
              exact hline

/-- C6: the history-index merge rewrites the target with the raw lines of the
union of valid entries of both files, deduplicated on `(sessionId, timestamp)`
with the priority file's entry winning (its raw line preserved verbatim),
sorted ascending by timestamp; invalid lines contribute nothing. -/
theorem c6_history_merge (pj : String → Option Json)
    (sourceLines targetLines : Option (List String)) (priority : MergePriority) :
    (merge_history_files pj sourceLines targetLines priority
      = (mergedHistoryEntries pj sourceLines targetLines priority).map (·.line))
    ∧ (mergedHistoryEntries pj sourceLines targetLines priority).Pairwise histLe
    ∧ ((mergedHistoryEntries pj sourceLines targetLines priority).map
        HistoryEntry.dedup_key).Nodup
    ∧ (∀ e ∈ validHistoryEntries pj (priorityLines sourceLines targetLines priority)
          ++ validHistoryEntries pj (secondaryLines sourceLines targetLines priority),
        ∃ e2 ∈ mergedHistoryEntries pj sourceLines targetLines priority,
          e2.dedup_key = e.dedup_key)
    ∧ (∀ e ∈ validHistoryEntries pj (priorityLines sourceLines targetLines priority),
        ∃ e2 ∈ mergedHistoryEntries pj sourceLines targetLines priority,
          e2.dedup_key = e.dedup_key
          ∧ e2.line ∈ priorityLines sourceLines targetLines priority)
    ∧ (∀ e2 ∈ mergedHistoryEntries pj sourceLines targetLines priority,
        e2 ∈ validHistoryEntries pj (priorityLines sourceLines targetLines priority)
        ∨ e2 ∈ validHistoryEntries pj (secondaryLines sourceLines targetLines priority)) := by
  have hinv0 : DedupInv ([], []) := by
    constructor
    · simp
    · intro k; simp
  have hfirst : ∀ p2, (match p2 with
      | MergePriority.TargetFirst => targetLines.getD []
      | MergePriority.SourceFirst => sourceLines.getD [])
      = priorityLines sourceLines targetLines p2 := by
    intro p2; cases p2 <;> rfl
  have hsecond : ∀ p2, (match p2 with
      | MergePriority.TargetFirst => sourceLines.getD []
      | MergePriority.SourceFirst => targetLines.getD [])
      = secondaryLines sourceLines targetLines p2 := by
    intro p2; cases p2 <;> rfl
  have hmdef : mergedHistoryEntries pj sourceLines targetLines priority
      = ((dedupPass pj (secondaryLines sourceLines targetLines priority)
          (dedupPass pj (priorityLines sourceLines targetLines priority)
            ([], []))).2).insertionSort histLe := by
    unfold mergedHistoryEntries
    rw [hfirst, hsecond]
  obtain ⟨hinv1, hext1, hprov1, hcov1⟩ :=
    dedupPass_spec pj (priorityLines sourceLines targetLines priority) ([], []) hinv0
  obtain ⟨hinv2, hext2, hprov2, hcov2⟩ :=
    dedupPass_spec pj (secondaryLines sourceLines targetLines priority)
      (dedupPass pj (priorityLines sourceLines targetLines priority) ([], [])) hinv1
  have hperm : (mergedHistoryEntries pj sourceLines targetLines priority).Perm
      (dedupPass pj (secondaryLines sourceLines targetLines priority)
        (dedupPass pj (priorityLines sourceLines targetLines priority) ([], []))).2 := by
    rw [hmdef]
    exact List.perm_insertionSort _ _
  refine ⟨rfl, ?_, ?_, ?_, ?_, ?_⟩
  · rw [hmdef]
    exact List.sorted_insertionSort histLe _
  · exact ((hperm.map HistoryEntry.dedup_key).nodup_iff).mpr hinv2.1
  · intro e he
    rcases List.mem_append.mp he with h1 | h1
    · have hk := hcov1 e h1
      obtain ⟨e2, he2, hke⟩ := List.mem_map.mp hk
      have he2' := hext2 e2 he2
      exact ⟨e2, hperm.mem_iff.mpr he2', hke⟩
    · have hk := hcov2 e h1
      obtain ⟨e2, he2, hke⟩ := List.mem_map.mp hk
      exact ⟨e2, hperm.mem_iff.mpr he2, hke⟩
  · intro e he
    have hk := hcov1 e he
    obtain ⟨e2, he2, hke⟩ := List.mem_map.mp hk
    have he2f : e2 ∈ validHistoryEntries pj (priorityLines sourceLines targetLines priority) := by
      rcases hprov1 e2 he2 with h1 | h1
      · simp at h1
      · exact h1
    exact ⟨e2, hperm.mem_iff.mpr (hext2 e2 he2), hke, validHistoryEntries_line he2f⟩
  · intro e2 he2
    have he2' := hperm.mem_iff.mp he2
    rcases hprov2 e2 he2' with h1 | h1
    · rcases hprov1 e2 h1 with h2 | h2
      · simp at h2
      · exact Or.inl h2
    · exact Or.inr h1

/-- Concrete text-level JSON parser for history-merge witnesses: the four
lines of the spec's scenario 5, abstracted to tokens. -/
def demoParseJson : String → Option Json := fun line =>
  if line = "T1" then
    some (Json.obj [("sessionId", Json.str "a"), ("timestamp", Json.num 1000),
                    ("display", Json.str "T1")])
  else if line = "T3" then
    some (Json.obj [("sessionId", Json.str "b"), ("timestamp", Json.num 3000),
                    ("display", Json.str "T3")])
  else if line = "S1" then
    some (Json.obj [("sessionId", Json.str "a"), ("timestamp", Json.num 1000),
                    ("display", Json.str "S1")])
  else if line = "S2" then
    some (Json.obj [("sessionId", Json.str "a"), ("timestamp", Json.num 2000),
                    ("display", Json.str "S2")])
  else none

/-- Target lines of the C6 witness. -/
def cwTgt6 : List String := ["T1", "T3"]

/-- Source lines of the C6 witness. -/
def cwSrc6 : List String := ["S1", "S2"]

/-- Parsed priority entry of the C6 witness. -/
def cwE6 : HistoryEntry :=
  { line := "T1", session_id := "a", timestamp := 1000, display := "T1" }

theorem c6_history_merge_witness :
    ∃ e2 ∈ mergedHistoryEntries demoParseJson (some cwSrc6) (some cwTgt6)
        MergePriority.TargetFirst,
      e2.dedup_key = cwE6.dedup_key
      ∧ e2.line ∈ priorityLines (some cwSrc6) (some cwTgt6) MergePriority.TargetFirst :=
  (c6_history_merge demoParseJson (some cwSrc6) (some cwTgt6)
    MergePriority.TargetFirst).2.2.2.2.1 cwE6 (by decide)

theorem parseEntries_mem :
    ∀ {doc : List Json} {es : List ConversationEntry}, parseEntries doc = some es →
      ∀ e ∈ es, ∃ j, parseEntry j = some e := by
  intro doc
  induction doc with
  | nil =>
    intro es h e he
    simp only [parseEntries] at h
    injection h with h2
    subst h2
    cases he
  | cons j rest ih =>
    intro es h e he
    simp only [parseEntries] at h
    cases hj : parseEntry j with
    | none => rw [hj] at h; exact Option.noConfusion h
    | some e1 =>
      cases hr : parseEntries rest with
      | none => rw [hj, hr] at h; exact Option.noConfusion h
      | some es2 =>
        rw [hj, hr] at h
        injection h with h2
        subst h2
        rcases List.mem_cons.mp he with heq | hmem
        · subst heq; exact ⟨j, hj⟩
        · exact ih hr e hmem

/-- C7: on any document on which parsing succeeds, writing the parsed entries
whole and parsing again returns the same entry sequence, and each entry
(its pass-through `extra` fields included) round-trips exactly through
serialize-then-parse. -/
theorem c7_parse_write_roundtrip (doc : List Json) (es : List ConversationEntry)
    (h : parseEntries doc = some es) :
    parseEntries (write_to_file es) = some es
    ∧ ∀ e ∈ es, parseEntry e.toJson = some e := by
  refine ⟨parseEntries_roundtrip doc es h, ?_⟩
  intro e he
  obtain ⟨j, hj⟩ := parseEntries_mem h e he
  obtain ⟨hmsg, X, hex, hs, hu⟩ := parseEntry_shape hj
  exact parseEntry_toJson e hmsg X hex hs hu

/-- Document of the C7 witness (with an unknown field). -/
def cwDoc7 : List Json :=
  [Json.obj [("type", Json.str "user"), ("zz", Json.num 3)],
   Json.obj [("type", Json.str "assistant"), ("uuid", Json.str "u")]]

/-- Parse result of the C7 witness. -/
def cwEs7 : List ConversationEntry :=
  [{ entry_type := "user", extra := Json.obj [("zz", Json.num 3)] },
   { entry_type := "assistant", uuid := some "u" }]

theorem c7_parse_write_roundtrip_witness :
    parseEntries (write_to_file cwEs7) = some cwEs7
    ∧ ∀ e ∈ cwEs7, parseEntry e.toJson = some e :=
  c7_parse_write_roundtrip cwDoc7 cwEs7 (by decide)

/-- C8: when the transport push of a push operation fails, a message carrying
one of the four rejection substrings is turned into the distinct pull-first
error, any other message is propagated (wrapped with the push context), and in
either case no Push record reaches the operation journal. -/
theorem c8_push_rejection (hasChanges confirmDeclined : Bool) (msg : String)
    (hrun : (hasChanges && confirmDeclined) = false) :
    (isNonFastForwardMsg msg = true →
      push_history hasChanges confirmDeclined true true (Except.error msg)
        = { result := Except.error (PushError.nonFastForward
              "Push rejected: remote has new commits. Run claude-code-sync pull first."),
            journaled := false })
    ∧ (isNonFastForwardMsg msg = false →
      push_history hasChanges confirmDeclined true true (Except.error msg)
        = { result := Except.error (PushError.withContext "Failed to push to remote" msg),
            journaled := false })
    ∧ (push_history hasChanges confirmDeclined true true (Except.error msg)).journaled
        = false := by
  refine ⟨?_, ?_, ?_⟩
  · intro hnf
    unfold push_history
    rw [hrun]
    simp [hnf]
  · intro hnf
    unfold push_history
    rw [hrun]
    simp [hnf]
  · unfold push_history
    rw [hrun]
    cases hnf : isNonFastForwardMsg msg <;> simp [hnf]

/-- Transport error message of the C8 witness. -/
def cwMsg8 : String := "error: failed to push some refs to origin"

theorem c8_push_rejection_witness :
    push_history true false true true (Except.error cwMsg8)
      = { result := Except.error (PushError.nonFastForward
            "Push rejected: remote has new commits. Run claude-code-sync pull first."),
          journaled := false } :=
  (c8_push_rejection true false cwMsg8 (by decide)).1 (by decide)

/-- One-entry session of the C9 counterexample. -/
def cxS9 : ConversationSession :=
  { session_id := "s", entries := [{ entry_type := "user" }], file_path := "p" }

/-- C9 counterexample: the hashed string newline-terminates every entry's JSON
rather than joining the texts with newline separators, so for a hash sensitive
to the trailing newline the claimed digest differs from the computed one. -/
theorem c9_counterexample :
    ConversationSession.content_hash demoHash cxS9
      ≠ hex16 (demoHash (specCombinedJson cxS9.entries) % 2 ^ 64) := by
  decide

/-- C9 (amended: the hashed string is each entry's canonical JSON *followed
by* a newline, i.e. newline-terminated rather than newline-separated): the
content hash depends only on the entries, and is the 64-bit digest of that
string rendered as exactly sixteen lower-case hexadecimal digits. -/
theorem c9_content_hash (xxh3 : String → Nat) (s1 s2 s : ConversationSession) :
    (s1.entries = s2.entries → s1.content_hash xxh3 = s2.content_hash xxh3)
    ∧ (s.content_hash xxh3).length = 16
    ∧ (∀ c ∈ (s.content_hash xxh3).data, c ∈ lowerHexChars)
    ∧ s.content_hash xxh3 = hex16 (xxh3 (appendedSuffix s.entries) % 2 ^ 64) := by
  refine ⟨?_, hex16_length _, hex16_chars _, ?_⟩
  · intro he
    unfold ConversationSession.content_hash
    rw [he]
  · unfold ConversationSession.content_hash
    rw [combinedJson_eq_appendedSuffix]

/-- First session of the C9 witness: same entries as `cwS9b`, different id and
path. -/
def cwS9a : ConversationSession :=
  { session_id := "x", entries := [{ entry_type := "user", uuid := some "1" }],
    file_path := "pa" }

/-- Second session of the C9 witness. -/
def cwS9b : ConversationSession :=
  { session_id := "y", entries := [{ entry_type := "user", uuid := some "1" }],
    file_path := "pb" }

theorem c9_content_hash_witness :
    ConversationSession.content_hash demoHash cwS9a
      = ConversationSession.content_hash demoHash cwS9b :=
  (c9_content_hash demoHash cwS9a cwS9b cwS9a).1 rfl

/-- C10: the content key of an entry depends only on its type, timestamp and
message; with both timestamp and message absent it is the type followed by
`::0000000000000000` (empty timestamp, zero message hash); hence both the
inline merge and the write-back selection treat two such uuid-less entries as
the same entry regardless of their other fields. -/
theorem c10_content_key_dependence (xxh3 : String → Nat) :
    (∀ a b : ConversationEntry, a.entry_type = b.entry_type →
      a.timestamp = b.timestamp → a.message = b.message →
      make_content_key xxh3 a = make_content_key xxh3 b)
    ∧ (∀ e : ConversationEntry, e.timestamp = none → e.message = none →
        make_content_key xxh3 e = e.entry_type ++ "::0000000000000000")
    ∧ (∀ (e1 e2 : ConversationEntry) (sid1 sid2 p1 p2 : String),
        e1.uuid = none → e2.uuid = none → e1.entry_type = e2.entry_type →
        e1.timestamp = none → e2.timestamp = none →
        e1.message = none → e2.message = none →
        inlineDivergedMerge xxh3 ⟨sid1, [e1], p1⟩ ⟨sid2, [e2], p2⟩ = [e1]
        ∧ writeBackEntriesToAppend xxh3 ⟨sid1, [e1], p1⟩ ⟨sid2, [e2], p2⟩ = []) := by
  refine ⟨?_, ?_, ?_⟩
  · intro a b h1 h2 h3
    unfold make_content_key
    rw [h1, h2, h3]
  · intro e h1 h2
    simp only [make_content_key, h1, h2, Option.getD_none]
    rw [String.append_assoc, String.append_assoc, String.append_assoc]
    have hlit : ":" ++ ("" ++ (":" ++ hex16 0)) = "::0000000000000000" := by decide
    rw [hlit]
  · intro e1 e2 sid1 sid2 p1 p2 hu1 hu2 hty hts1 hts2 hm1 hm2
    have hkey : make_non_uuid_key xxh3 e2 = make_non_uuid_key xxh3 e1 := by
      unfold make_non_uuid_key
      rw [hty, hts1, hts2, hm1, hm2]
    have hkey2 : make_content_key xxh3 e2 = make_content_key xxh3 e1 := by
      unfold make_content_key
      rw [hty, hts1, hts2, hm1, hm2]
    constructor
    · unfold inlineDivergedMerge remoteKeepPred
      simp [hu1, hu2, hkey, List.insertionSort, List.orderedInsert]
    · unfold writeBackEntriesToAppend
      simp [hu1, hu2, hkey2]

/-- First uuid-less entry of the C10 witness. -/
def cwE10a : ConversationEntry :=
  { entry_type := "file-history-snapshot", cwd := some "/a" }

/-- Second uuid-less entry of the C10 witness, differing in `cwd`. -/
def cwE10b : ConversationEntry :=
  { entry_type := "file-history-snapshot", cwd := some "/b" }

theorem c10_content_key_dependence_witness :
    inlineDivergedMerge demoHash ⟨"s", [cwE10a], "l"⟩ ⟨"s", [cwE10b], "r"⟩ = [cwE10a]
    ∧ writeBackEntriesToAppend demoHash ⟨"s", [cwE10a], "l"⟩ ⟨"s", [cwE10b], "r"⟩ = [] :=
  (c10_content_key_dependence demoHash).2.2 cwE10a cwE10b "s" "s" "l" "r"
    rfl rfl rfl rfl rfl rfl rfl
